import Mathlib

/-!
Verification development for the static-site generator's core engines:
the MML markup parser (src/generator/src/parse.cpp, str_utils.cpp) and the
Sexpr evaluator (src/generator/src/eval_engine.cpp).

Shallow embedding conventions:
- C++ strings and string_views become `List Char` (`Chars`); iterator pairs
  [start, end) become Nat indices (i, e) into a fixed character list.
- C++ doubles become `Rat`; the claims under study exclude NaN, and none of
  them depends on rounding, so exact rationals stand in for the non-NaN
  doubles.
- Loops with by-reference iterators become recursion; where termination of a
  loop depends on iterator progress, an explicit structural count argument
  (fuel) is threaded so that the definitions reduce in the kernel.  A fuel of
  0 yields the failure value; all theorems are fuel-polymorphic or use the
  generous fuel fixed by the top-level entry points.
- Fallible code returns `Option` or `Except`; C++ exceptions become
  `Except.error`.
-/

set_option maxHeartbeats 1000000

abbrev Chars := List Char

/-- Null character used for reads past the end of a buffer (the C++ would hit
undefined behavior there; the parsers only ever compare such a read against
specific printable characters, so a sentinel that equals none of them is a
faithful total model). -/
def nulChar : Char := Char.ofNat 0

/-- Character at index `i`, with the null sentinel out of range. -/
def charAt (s : Chars) (i : Nat) : Char := s.getD i nulChar

/-- The slice [i, j) of `s`, as the C++ `range_to_view(start, end)`. -/
def sliceStr (s : Chars) (i j : Nat) : Chars := (s.take j).drop i

/-- str_utils::bin_compare: char-wise three-way compare, then by length
(character order through the scalar value). -/
def bin_compare : Chars → Chars → Ordering
  | [], [] => .eq
  | [], _ :: _ => .lt
  | _ :: _, [] => .gt
  | a :: as, b :: bs => if a = b then bin_compare as bs else compare a.toNat b.toNat

/-- `a` is a leading segment of `b` (used for the C++ starts_with on
std::string). -/
def startsWithChars : Chars → Chars → Bool
  | [], _ => true
  | _ :: _, [] => false
  | a :: as, b :: bs => a = b && startsWithChars as bs

/-! ## Sexpr evaluator data model (eval_engine.cpp)

The repository ships the richer evaluator variant only as eval_engine.cpp;
the header it was compiled against (with `Tag::TYPE`-style extras such as the
namespaced `Symbol`, `Macro`, `std::list` lists and the `Frame`) is not under
src/.  Structures below follow the .cpp's uses of those types; where the .cpp
leaves something to the missing header it is noted and modelled from the
spec. -/

/-- Identifies which host implementation a NativeFunc carries.  The C++
stores a `std::function`; the closures seeded by the Context constructor and
by make_frame are enumerated here.  `nlet` carries the frame id captured by
the lambda that make_frame installs under "let". -/
inductive NativeTag where
  | nbuf
  | nstr
  | ndef
  | nadd
  | nsub
  | nmul
  | ndiv
  | ninvertSign
  | ntruthy
  | nlet (frameId : Nat)

/-- generator::eval::Value.  `vnil` is the disengaged optional.  Numbers are
`Rat` (non-NaN doubles).  `vlist` is the `std::list<Value>` callable form,
`vvec` the `std::vector<Value>`, `vmap` the ordered `std::map<Value, Value>`
as its ordered key/value pairs.  `vfunc` carries the captured frame as an
arena id (frames live in the evaluator state, mirroring `shared_ptr<Frame>`).
`vmac` is the Macro.  `vnative` carries the registered name (the only part
the Value comparison reads) and the implementation tag. -/
inductive Value where
  | vnil
  | vbool (b : Bool)
  | vnum (q : Rat)
  | vstr (s : Chars)
  | vatom (token : Chars)
  | vsym (ns : Option Chars) (token : Chars)
  | vlist (xs : List Value)
  | vvec (xs : List Value)
  | vmap (pairs : List (Value × Value))
  | vfunc (args : List (Option Chars × Chars)) (varArgs : Option (Option Chars × Chars))
      (statements : List Value) (frame : Option Nat)
  | vmac (args : List (Option Chars × Chars)) (varArgs : Option (Option Chars × Chars))
      (statements : List Value)
  | vnative (name : Chars) (tag : NativeTag)

/-- A lexical frame: its own bindings plus an optional parent, as
generator::eval::Frame.  Frames are heap objects shared through
`shared_ptr`; the evaluator state holds an arena of them and values refer to
them by index. -/
structure FrameData where
  current : List (Chars × Value)
  parent : Option Nat

/-- Ordered-map insertion: replace the value at a present key, else append
(the iteration order of the C++ std::map is not observed by any claim). -/
def alistSet (k : Chars) (v : Value) : List (Chars × Value) → List (Chars × Value)
  | [] => [(k, v)]
  | (k', v') :: rest => if k' = k then (k, v) :: rest else (k', v') :: alistSet k v rest

def alistGet (k : Chars) : List (Chars × Value) → Option Value
  | [] => none
  | (k', v') :: rest => if k' = k then some v' else alistGet k rest

def nsGet (ns : Chars) : List (Chars × List (Chars × Value)) → List (Chars × Value)
  | [] => []
  | (n, m) :: rest => if n = ns then m else nsGet ns rest

def nsSet (ns : Chars) (k : Chars) (v : Value) :
    List (Chars × List (Chars × Value)) → List (Chars × List (Chars × Value))
  | [] => [(ns, [(k, v)])]
  | (n, m) :: rest => if n = ns then (n, alistSet k v m) :: rest else (n, m) :: nsSet ns k v rest

def fallbackGet (ns : Chars) : List (Chars × List Chars) → List Chars
  | [] => []
  | (n, l) :: rest => if n = ns then l else fallbackGet ns rest

/-- generator::eval::Context's mutable state: the two-level symbol table, the
per-namespace fallback lists, the output buffer, and the frame arena
(mirroring the shared_ptr<Frame> heap). -/
structure EvalState where
  symbols : List (Chars × List (Chars × Value))
  fallbackNs : List (Chars × List Chars)
  buf : Chars
  frames : List FrameData

/-- Context::current_namespace — fixed to "core". -/
def current_namespace : Chars := "core".data

/-- Evaluator failures: runtime_error messages, plus the fuel sentinel for
the shallow embedding's step bound. -/
inductive EvalErr where
  | runtime (msg : Chars)
  | outOfFuel

/-! ### The printer (operator<< on Value, §6.3) -/

/-- Digits of a natural number. -/
def natDigits (n : Nat) : Chars := (toString n).data

/-- Rendering of a number.  The C++ streams a double; integral values print
without a fractional part.  Exact decimal formatting of doubles is outside
the claims; integral rationals (the only numbers any witness prints) render
exactly as the C++ does. -/
def renderNum (q : Rat) : Chars :=
  if q.den = 1 then
    (if q.num < 0 then '-' :: natDigits q.num.natAbs else natDigits q.num.natAbs)
  else (toString q).data

/-- ranges::views::join(" ") over rendered pieces. -/
def joinSpaced : List Chars → Chars
  | [] => []
  | [x] => x
  | x :: rest => x ++ ' ' :: joinSpaced rest

/-- Escape embedded double quotes, as the string case of the printer. -/
def escapeQuotes : Chars → Chars
  | [] => []
  | c :: rest => if c = '"' then '\\' :: '"' :: escapeQuotes rest else c :: escapeQuotes rest

mutual
/-- operator<<(std::ostream&, const Value&): the printer.  (For a
disengaged value the C++ prints "nil" and then visits the disengaged
variant, which is undefined behavior; the model keeps just the "nil".) -/
def renderValue : Value → Chars
  | .vnil => "nil".data
  | .vbool b => if b then "true".data else "false".data
  | .vnum q => renderNum q
  | .vstr s => '"' :: escapeQuotes s ++ ['"']
  | .vatom t => ':' :: t
  | .vsym ns t =>
    match ns with
    | some n => n ++ '.' :: t
    | none => t
  | .vlist xs => '(' :: joinSpaced (renderList xs) ++ [')']
  | .vvec xs => '[' :: joinSpaced (renderList xs) ++ [']']
  | .vmap ps => '{' :: joinSpaced (renderPairs ps) ++ ['}']
  | .vfunc args varArgs stmts _ =>
    "(__native__.fn [".data ++ joinSpaced (args.map (fun a => a.2)) ++
      (match varArgs with
       | some va => "& ".data ++ va.2
       | none => []) ++ "] ".data ++ (renderStmts stmts).flatten ++ [')']
  | .vmac args varArgs stmts =>
    "(__native__.macro [".data ++ joinSpaced (args.map (fun a => a.2)) ++
      (match varArgs with
       | some va => "& ".data ++ va.2
       | none => []) ++ "] ".data ++ (renderStmts stmts).flatten ++ [')']
  | .vnative name _ => "<NativeFunc:".data ++ name ++ ['>']
termination_by v => sizeOf v

def renderList : List Value → List Chars
  | [] => []
  | v :: rest => renderValue v :: renderList rest
termination_by l => sizeOf l

def renderPairs : List (Value × Value) → List Chars
  | [] => []
  | (k, v) :: rest => (renderValue k ++ ' ' :: renderValue v) :: renderPairs rest
termination_by l => sizeOf l

def renderStmts : List Value → List Chars
  | [] => []
  | v :: rest => ('(' :: renderValue v ++ [')']) :: renderStmts rest
termination_by l => sizeOf l
end

/-! ### Native operator implementations (eval_engine.cpp lines 104-259) -/

/-- value_to_double: Number and Bool coerce; everything else raises. -/
def value_to_double : Value → Except EvalErr Rat
  | .vnum q => .ok q
  | .vbool b => .ok (if b then 1 else 0)
  | v =>
    .error (.runtime ("Cannot cast value '".data ++ renderValue v ++ "' to number".data))

/-- Coerce a whole argument vector, left to right. -/
def mapNums : List Value → Except EvalErr (List Rat)
  | [] => .ok []
  | v :: rest =>
    match value_to_double v with
    | .error e => .error e
    | .ok q =>
      match mapNums rest with
      | .ok qs => .ok (q :: qs)
      | .error e => .error e

/-- native_str: strings verbatim, a disengaged value prints as the empty
string, everything else through the printer. -/
def strRender1 : Value → Chars
  | .vnil => []
  | .vstr s => s
  | v => renderValue v

/-- native_str (eval_engine.cpp lines 119-139). -/
def native_str (v : List Value) : Value := .vstr (v.map strRender1).flatten

/-- The "buf" closure from the Context constructor (lines 227-237): appends
each argument to the output buffer (strings verbatim, others through the
printer) and returns Nil.  It reads `val.val.value()` without an engagement
check, so a Nil argument raises std::bad_optional_access; appends made before
the raise persist in the C++ buffer, hence the incremental recursion. -/
def native_buf (s : EvalState) : List Value → Except EvalErr (Value × EvalState)
  | [] => .ok (.vnil, s)
  | .vnil :: _ => .error (.runtime "bad optional access".data)
  | .vstr str :: rest => native_buf { s with buf := s.buf ++ str } rest
  | v :: rest => native_buf { s with buf := s.buf ++ renderValue v } rest

/-- The "def" closure from the Context constructor (lines 239-253),
registered under the skip-first-argument name "_1def". -/
def native_def (s : EvalState) (v : List Value) : Except EvalErr (Value × EvalState) :=
  match v with
  | [first, value] =>
    match first with
    | .vsym ns tok =>
      if startsWithChars "__native__.".data tok then
        .error (.runtime "Cannot define symbols in native namespace".data)
      else
        .ok (.vnil, { s with symbols := nsSet (ns.getD current_namespace) tok value s.symbols })
    | _ => .error (.runtime "Must bind to a Symbol!".data)
  | _ => .error (.runtime "Invalid arity for def! Expected 2 values!".data)

/-- native_add: fold + from 0 over all coerced arguments. -/
def native_add (v : List Value) : Except EvalErr Value :=
  if v.isEmpty then .error (.runtime "Expected at least one argument to __native__.add!".data)
  else
    match mapNums v with
    | .error e => .error e
    | .ok qs => .ok (.vnum (qs.foldl (fun a b => a + b) 0))

/-- native_mul: fold * from 1 over all coerced arguments.  (Its arity error
message also says "__native__.add!", as in the source.) -/
def native_mul (v : List Value) : Except EvalErr Value :=
  if v.isEmpty then .error (.runtime "Expected at least one argument to __native__.add!".data)
  else
    match mapNums v with
    | .error e => .error e
    | .ok qs => .ok (.vnum (qs.foldl (fun a b => a * b) 1))

/-- native_sub: fold - of the tail against the first argument. -/
def native_sub (v : List Value) : Except EvalErr Value :=
  if v.isEmpty then .error (.runtime "Expected at least one argument to __native__.add!".data)
  else
    match mapNums v with
    | .error e => .error e
    | .ok qs =>
      match qs with
      | [] => .error (.runtime "Expected at least one argument to __native__.add!".data)
      | q0 :: rest => .ok (.vnum (rest.foldl (fun a b => a - b) q0))

/-- native_div: fold / of the tail against the first argument.  (C++ divides
doubles; division by zero is outside every claim.) -/
def native_div (v : List Value) : Except EvalErr Value :=
  if v.isEmpty then .error (.runtime "Expected at least one argument to __native__.add!".data)
  else
    match mapNums v with
    | .error e => .error e
    | .ok qs =>
      match qs with
      | [] => .error (.runtime "Expected at least one argument to __native__.add!".data)
      | q0 :: rest => .ok (.vnum (rest.foldl (fun a b => a / b) q0))

/-- invert_sign: unary numeric negation. -/
def invert_sign (v : List Value) : Except EvalErr Value :=
  if v.length ≠ 1 then
    .error (.runtime "Expected arity of one argument to __native__.invert-sign!".data)
  else
    match value_to_double (v.headD .vnil) with
    | .error e => .error e
    | .ok q => .ok (.vnum (-q))

/-- truthy: false for Nil, false, 0.0 and the empty string; true otherwise. -/
def truthy (v : List Value) : Except EvalErr Value :=
  if v.length ≠ 1 then
    .error (.runtime "Expected arity of one argument to __native__.truthy!".data)
  else
    match v.headD .vnil with
    | .vnil => .ok (.vbool false)
    | .vbool b => .ok (.vbool b)
    | .vstr s => .ok (.vbool (!s.isEmpty))
    | .vnum q => .ok (.vbool (q ≠ 0))
    | _ => .ok (.vbool true)

/-- The symbol table seeded by the Context constructor (lines 225-260).
Note that the key "def" maps to a native whose registered NAME is "_1def". -/
def initSymbols : List (Chars × List (Chars × Value)) :=
  [("__native__".data,
    [("buf".data, .vnative "buf".data .nbuf),
     ("str".data, .vnative "str".data .nstr),
     ("def".data, .vnative "_1def".data .ndef),
     ("add".data, .vnative "add".data .nadd),
     ("sub".data, .vnative "sub".data .nsub),
     ("mul".data, .vnative "mul".data .nmul),
     ("div".data, .vnative "div".data .ndiv),
     ("invert-sign".data, .vnative "invert-sign".data .ninvertSign),
     ("truthy".data, .vnative "truthy".data .ntruthy)])]

/-- A fresh Context. -/
def initContext : EvalState := ⟨initSymbols, [], [], []⟩

/-! ### Argument-evaluation skip rule -/

/-- SIZE_MAX on the 64-bit target. -/
def USIZE_MAX : Nat := 2 ^ 64 - 1

/-- strtoull base 10 on the leading digits, saturating at ULLONG_MAX. -/
def decDigitsVal (cs : Chars) : Nat :=
  min ((cs.takeWhile Char.isDigit).foldl (fun acc c => acc * 10 + (c.toNat - 48)) 0) USIZE_MAX

/-- Context::params_to_skip_eval_for (lines 885-910): a NativeFunc whose
name starts with "__" skips every argument (SIZE_MAX), a name starting with
"_" skips strtoull of the rest of the name, a Macro skips every argument,
everything else (including a disengaged value) skips none. -/
def params_to_skip_eval_for : Value → Nat
  | .vnative name _ =>
    if startsWithChars "__".data name then USIZE_MAX
    else if startsWithChars "_".data name then decDigitsVal (name.drop 1)
    else 0
  | .vmac _ _ _ => USIZE_MAX
  | _ => 0

/-! ### Frames -/

/-- Value{Symbol}.to_string(): how a parameter Symbol is rendered into a
frame-binding key. -/
def symChars (a : Option Chars × Chars) : Chars :=
  match a.1 with
  | some n => n ++ '.' :: a.2
  | none => a.2

/-- Context::make_frame (lines 275-308): allocates a fresh frame whose map
holds only the "let" operator (a native named "__frame.let" closing over the
new frame itself).  The C++ never writes its `parent` argument into the new
frame — the parameter is unused — so the new frame's parent is null; the
parameter is kept here for call-shape fidelity. -/
def makeFrame (s : EvalState) (_parent : Option Nat) : Nat × EvalState :=
  let fid := s.frames.length
  (fid,
   { s with
     frames := s.frames ++ [⟨[("let".data, .vnative "__frame.let".data (.nlet fid))], none⟩] })

/-- Rebind a key inside an arena frame's own map. -/
def frameBind (s : EvalState) (fid : Nat) (k : Chars) (v : Value) : EvalState :=
  match s.frames[fid]? with
  | some fd => { s with frames := s.frames.set fid ⟨alistSet k v fd.current, fd.parent⟩ }
  | none => s

/-- The `current` maps along a parent chain, innermost first (bounded walk;
real chains are acyclic, and every theorem about the walk is stated against
this same bound). -/
def frameChainCurrents (frames : List FrameData) : Nat → Option Nat → List (List (Chars × Value))
  | 0, _ => []
  | _, none => []
  | n + 1, some fid =>
    match frames[fid]? with
    | none => []
    | some fd => fd.current :: frameChainCurrents frames n fd.parent

/-- Frame::add_root_frame (lines 37-47): clone every link of this frame's
chain (maps shared, parents rebuilt) and graft `root` below the last clone;
returns the id of the top clone. -/
def addRootFrame (s : EvalState) (fid : Nat) (root : Option Nat) : Nat × EvalState :=
  let currents := frameChainCurrents s.frames (s.frames.length + 1) (some fid)
  let currents := if currents.isEmpty then [[]] else currents
  let base := s.frames.length
  let k := currents.length
  let clones :=
    currents.mapIdx (fun i cur => (⟨cur, if i + 1 < k then some (base + i + 1) else root⟩ : FrameData))
  (base, { s with frames := s.frames ++ clones })

/-- The frame-chain portion of symbol resolution: walk parents outward,
first hit wins. -/
def frameLookup (frames : List FrameData) : Nat → Option Nat → Chars → Option Value
  | 0, _, _ => none
  | _, none, _ => none
  | n + 1, some fid, tok =>
    match frames[fid]? with
    | none => none
    | some fd =>
      match alistGet tok fd.current with
      | some v => some v
      | none => frameLookup frames n fd.parent tok

/-- Search the listed fallback namespaces in order. -/
def fallbackLookup (symbols : List (Chars × List (Chars × Value))) :
    List Chars → Chars → Option Value
  | [], _ => none
  | ns :: rest, tok =>
    match alistGet tok (nsGet ns symbols) with
    | some v => some v
    | none => fallbackLookup symbols rest tok

/-- Unqualified-symbol resolution (evalValue, lines 317-340): the frame
chain from innermost outward, then symbols[current_namespace], then each
namespace of fallbackNs[current_namespace] in order. -/
def lookupUnqualified (s : EvalState) (fid : Nat) (tok : Chars) : Option Value :=
  match frameLookup s.frames (s.frames.length + 1) (some fid) tok with
  | some v => some v
  | none =>
    match alistGet tok (nsGet current_namespace s.symbols) with
    | some v => some v
    | none => fallbackLookup s.symbols (fallbackGet current_namespace s.fallbackNs) tok

/-- Bind positional parameters into the freshly made call frame. -/
def bindPositional (s : EvalState) (fid : Nat) :
    List (Option Chars × Chars) → List Value → EvalState
  | [], _ => s
  | _ :: _, [] => s
  | a :: as, p :: ps => bindPositional (frameBind s fid (symChars a) p) fid as ps

/-! ### The evaluation kernel (Context::evalValue / Context::call,
eval_engine.cpp lines 310-430, with the let operator from make_frame).
The structural `fuel` argument bounds recursion depth; the C++ recursion is
unbounded (user programs may diverge), and every claim is either
fuel-polymorphic or conditional on a non-error result. -/

mutual
/-- Context::evalValue on a non-null frame.  Literals self-evaluate (the
default visitor branch, which also covers Map — the visitor has no map
case); Vectors evaluate elementwise; Symbols resolve; Lists evaluate the
head, apply the skip rule to the arguments, and call. -/
def evalValueF : Nat → EvalState → Nat → Value → Except EvalErr (Value × EvalState)
  | 0, _, _, _ => .error .outOfFuel
  | fuel + 1, s, frameId, v =>
    match v with
    | .vsym none tok =>
      match lookupUnqualified s frameId tok with
      | some value => .ok (value, s)
      | none => .error (.runtime ("Could not find symbol ".data ++ tok))
    | .vsym (some ns) tok =>
      match alistGet tok (nsGet ns s.symbols) with
      | some value => .ok (value, s)
      | none => .error (.runtime ("Could not find symbol ".data ++ ns ++ '.' :: tok))
    | .vvec xs =>
      match evalSeq fuel s frameId xs with
      | .ok (vs, s') => .ok (.vvec vs, s')
      | .error e => .error e
    | .vlist [] => .ok (.vnil, s)
    | .vlist (h :: args) =>
      match evalValueF fuel s frameId h with
      | .error e => .error e
      | .ok (m, s1) =>
        match evalArgs fuel s1 frameId (params_to_skip_eval_for m) args with
        | .error e => .error e
        | .ok (ps, s2) => callV fuel s2 frameId m ps
    | other => .ok (other, s)
termination_by fuel _ _ _ => (fuel, 0, 0)

/-- Elementwise evaluation of a Vector (std::transform in source order,
threading the context's mutable state). -/
def evalSeq : Nat → EvalState → Nat → List Value → Except EvalErr (List Value × EvalState)
  | _, s, _, [] => .ok ([], s)
  | fuel, s, frameId, v :: rest =>
    match evalValueF fuel s frameId v with
    | .error e => .error e
    | .ok (v', s') =>
      match evalSeq fuel s' frameId rest with
      | .ok (vs, s'') => .ok (v' :: vs, s'')
      | .error e => .error e
termination_by fuel _ _ l => (fuel, 1, l.length)

/-- The argument transform of the List branch: while the skip counter is
positive an argument passes through unevaluated; afterwards arguments are
evaluated in order. -/
def evalArgs : Nat → EvalState → Nat → Nat → List Value → Except EvalErr (List Value × EvalState)
  | _, s, _, _, [] => .ok ([], s)
  | fuel, s, frameId, toSkip + 1, a :: rest =>
    match evalArgs fuel s frameId toSkip rest with
    | .ok (ps, s') => .ok (a :: ps, s')
    | .error e => .error e
  | fuel, s, frameId, 0, a :: rest =>
    match evalValueF fuel s frameId a with
    | .error e => .error e
    | .ok (v, s') =>
      match evalArgs fuel s' frameId 0 rest with
      | .ok (ps, s'') => .ok (v :: ps, s'')
      | .error e => .error e
termination_by fuel _ _ _ l => (fuel, 1, l.length)

/-- Context::call (lines 386-430).  A Func arity-checks, builds its call
frame from add_root_frame of the caller chain over the captured frame (the
result is then passed to make_frame, which drops it — as the C++ does),
binds parameters, and evaluates Value{statements} (a Vector, so the call
returns the Vector of statement results, as the source does).  A NativeFunc
dispatches to its host implementation.  Bools select among the arguments.
Everything else (including Macro, absent from the visitor) is an invalid
callable. -/
def callV : Nat → EvalState → Nat → Value → List Value → Except EvalErr (Value × EvalState)
  | fuel, s, frameId, func, params =>
    match func with
    | .vnil => .error (.runtime "Cannot call 'nil'!".data)
    | .vfunc args varArgs stmts captured =>
      if params.length < args.length ∨ (varArgs = none ∧ args.length ≠ params.length) then
        .error (.runtime ("Expected arity ".data ++ natDigits args.length ++
          " but received  ".data ++ natDigits params.length ++ " params.".data))
      else
        let rootPair := addRootFrame s frameId captured
        let framePair := makeFrame rootPair.2 (some rootPair.1)
        let ffid := framePair.1
        let s2 := bindPositional framePair.2 ffid args params
        let s3 :=
          match varArgs with
          | some va => frameBind s2 ffid (symChars va) (.vvec (params.drop args.length))
          | none => s2
        evalValueF fuel s3 ffid (.vvec stmts)
    | .vnative _ tag =>
      match tag with
      | .nbuf => native_buf s params
      | .nstr => .ok (native_str params, s)
      | .ndef => native_def s params
      | .nadd =>
        match native_add params with
        | .ok v => .ok (v, s)
        | .error e => .error e
      | .nsub =>
        match native_sub params with
        | .ok v => .ok (v, s)
        | .error e => .error e
      | .nmul =>
        match native_mul params with
        | .ok v => .ok (v, s)
        | .error e => .error e
      | .ndiv =>
        match native_div params with
        | .ok v => .ok (v, s)
        | .error e => .error e
      | .ninvertSign =>
        match invert_sign params with
        | .ok v => .ok (v, s)
        | .error e => .error e
      | .ntruthy =>
        match truthy params with
        | .ok v => .ok (v, s)
        | .error e => .error e
      | .nlet homeFid => nativeLet fuel s homeFid params
    | .vbool b =>
      if b then
        match params with
        | p :: _ => .ok (p, s)
        | [] => .ok (.vnil, s)
      else
        match params with
        | _ :: p :: _ => .ok (p, s)
        | _ => .ok (.vnil, s)
    | _ => .error (.runtime "Invalid callable!".data)
termination_by fuel _ _ _ _ => (fuel, 2, 0)

/-- The "__frame.let" closure installed by make_frame: the first argument
must be a Vector of symbol/value pairs, bound cumulatively in a fresh frame;
the remaining arguments are the body. -/
def nativeLet : Nat → EvalState → Nat → List Value → Except EvalErr (Value × EvalState)
  | fuel, s, homeFid, args =>
    match args with
    | [] => .error (.runtime "Must have arguments to 'let'".data)
    | first :: body =>
      match first with
      | .vvec bindings =>
        let framePair := makeFrame s (some homeFid)
        match letBinds fuel framePair.2 framePair.1 bindings with
        | .error e => .error e
        | .ok s2 => letBody fuel s2 framePair.1 body
      | _ => .error (.runtime "First argument to 'let' must be a vector".data)
termination_by fuel _ _ _ => (fuel, 1, 0)

/-- The cumulative binding loop of "let".  Keys must be Symbols; each value
expression is evaluated in the let frame built so far.  (When a key has no
value the C++ dereferences the end iterator while building the message —
undefined behavior; the message is modelled without the value.) -/
def letBinds : Nat → EvalState → Nat → List Value → Except EvalErr EvalState
  | _, s, _, [] => .ok s
  | _, _, _, [k] =>
    match k with
    | .vsym _ _ => .error (.runtime "Missing value for ".data)
    | _ => .error (.runtime "'let' can only bind to symbols!".data)
  | fuel, s, nfid, k :: vexpr :: rest' =>
    match k with
    | .vsym ns tok =>
      match evalValueF fuel s nfid vexpr with
      | .error e => .error e
      | .ok (v, s') => letBinds fuel (frameBind s' nfid (symChars (ns, tok)) v) nfid rest'
    | _ => .error (.runtime "'let' can only bind to symbols!".data)
termination_by fuel _ _ l => (fuel, 0, l.length + 1)

/-- Body forms of "let", evaluated in order; the last value is returned
(Nil for an empty body). -/
def letBody : Nat → EvalState → Nat → List Value → Except EvalErr (Value × EvalState)
  | _, s, _, [] => .ok (.vnil, s)
  | fuel, s, nfid, [f] =>
    match evalValueF fuel s nfid f with
    | .error e => .error e
    | .ok (v, s') => .ok (v, s')
  | fuel, s, nfid, f :: g :: rest =>
    match evalValueF fuel s nfid f with
    | .error e => .error e
    | .ok (_, s') => letBody fuel s' nfid (g :: rest)
termination_by fuel _ _ l => (fuel, 0, l.length + 1)
end

/-- Context::eval's per-form entry: evalValue with a null frame allocates a
root frame through make_frame first (lines 310-313). -/
def evalValueTop (fuel : Nat) (s : EvalState) (v : Value) : Except EvalErr (Value × EvalState) :=
  let framePair := makeFrame s none
  evalValueF fuel framePair.2 framePair.1 v

/-! ## String utilities (str_utils.cpp)

All operate on Nat indices (i, e) standing for the C++ iterator pair
[start, end).  Single loops whose progress is an advancing iterator carry a
structural count so the kernel can evaluate them. -/

/-- str_utils' is_whitespace. -/
def is_whitespace (c : Char) : Bool := c = '\r' || c = '\n' || c = '\t' || c = ' '

/-- std::find over [i, e): first index holding `c`, else `e`. -/
def findCharFromAux (s : Chars) (c : Char) : Nat → Nat → Nat
  | 0, i => i
  | n + 1, i => if charAt s i = c then i else findCharFromAux s c n (i + 1)

def findCharFrom (s : Chars) (c : Char) (i e : Nat) : Nat :=
  if i ≤ e then findCharFromAux s c (e - i) i else e

/-- std::find_if_not over [i, e): first index where `p` fails, else `e`. -/
def findIfNotAux (s : Chars) (p : Char → Bool) : Nat → Nat → Nat
  | 0, i => i
  | n + 1, i => if p (charAt s i) then findIfNotAux s p n (i + 1) else i

def findIfNot (s : Chars) (p : Char → Bool) (i e : Nat) : Nat :=
  if i ≤ e then findIfNotAux s p (e - i) i else e

/-- str_utils::find_not_escaped: first `look` in [i, e) not immediately
preceded by `esc`; `e` if none.  (An occurrence at `i` itself is returned
as-is, as in the source.) -/
def find_not_escaped_go (s : Chars) (look esc : Char) (e : Nat) : Nat → Nat → Nat
  | 0, _ => e
  | n + 1, i =>
    let pe := findCharFrom s look i e
    if e ≤ pe then e
    else if pe = i then i
    else if charAt s (pe - 1) ≠ esc then pe
    else find_not_escaped_go s look esc e n (pe + 1)

def find_not_escaped (s : Chars) (look : Char) (i e : Nat) : Nat :=
  find_not_escaped_go s look '\\' e (e + 1) i

/-- str_utils::find_not_quoted: first `look` outside double-quoted spans; a
quote toggles the state unless the previous character was a backslash. -/
def find_not_quoted_go (s : Chars) (look : Char) : Nat → Nat → Bool → Bool → Nat
  | 0, i, _, _ => i
  | n + 1, i, oddQuotes, prevBS =>
    if !oddQuotes && charAt s i = look then i
    else
      find_not_quoted_go s look n (i + 1)
        (oddQuotes != (charAt s i = '"' && !prevBS)) (charAt s i = '\\')

def find_not_quoted (s : Chars) (look : Char) (i e : Nat) : Nat :=
  if i ≤ e then find_not_quoted_go s look (e - i) i false false else e

/-- The inner counting loop of find_not_escaped_stack: how many unescaped
`pair` characters find_not_escaped locates in [pos, hi). -/
def countUnescapedGo (s : Chars) (pair : Char) (hi : Nat) : Nat → Nat → Nat → Nat
  | 0, _, count => count
  | n + 1, pos, count =>
    let q := find_not_escaped_go s pair '\\' hi (hi + 1) pos
    if hi ≤ q then count else countUnescapedGo s pair hi n (q + 1) (count + 1)

/-- str_utils::find_not_escaped_stack: locate the close matching the open
the scan is already inside, counting nested unescaped open/close pairs. -/
def find_not_escaped_stack_go (s : Chars) (look pair : Char) (e : Nat) :
    Nat → Nat → Nat → Nat
  | 0, _, _ => e
  | n + 1, count, curPos =>
    if e ≤ curPos then e
    else
      let nextEnd := find_not_escaped s look curPos e
      if e ≤ nextEnd then e
      else
        let count' := count + countUnescapedGo s pair nextEnd (nextEnd + 1) curPos 0
        if count' ≤ 1 then nextEnd
        else find_not_escaped_stack_go s look pair e n (count' - 1) (nextEnd + 1)

def find_not_escaped_stack (s : Chars) (look pair : Char) (i e : Nat) : Nat :=
  find_not_escaped_stack_go s look pair e (e + 1) 0 i

/-- All characters of [i, j) are whitespace. -/
def allWhitespace (s : Chars) (i j : Nat) : Bool := (sliceStr s i j).all is_whitespace

/-- str_utils::find_after_newline_ws: first `look` preceded, since the most
recent newline, by whitespace only. -/
def find_after_newline_ws_go (s : Chars) (look : Char) (e : Nat) : Nat → Nat → Nat
  | 0, _ => e
  | n + 1, cur =>
    if e ≤ cur then e
    else
      let nl := findCharFrom s '\n' cur e
      if e ≤ nl then e
      else
        let lp := findCharFrom s look nl e
        if lp < e && allWhitespace s nl lp then lp
        else find_after_newline_ws_go s look e n (nl + 1)

def find_after_newline_ws (s : Chars) (look : Char) (i e : Nat) : Nat :=
  find_after_newline_ws_go s look e (e + 1) i

/-- The trailing-whitespace check of starts_with_trails_newline_ws: from
`l`, everything up to the next newline (or `e`) is whitespace. -/
def trailsOnlyWs (s : Chars) (e : Nat) : Nat → Nat → Bool
  | 0, _ => true
  | n + 1, l =>
    if e ≤ l then true
    else if charAt s l = '\n' then true
    else if !is_whitespace (charAt s l) then false
    else trailsOnlyWs s e n (l + 1)

/-- str_utils::starts_with_trails_newline_ws: `look` matches at `i`, and
every character after it up to the next newline (or `e`) is whitespace. -/
def starts_with_trails_newline_ws (s : Chars) (i e : Nat) (look : Chars) : Bool :=
  if e - i < look.length then false
  else startsWithChars look (sliceStr s i e) && trailsOnlyWs s e (e + 1) (i + look.length)

/-- The backwards walk of ends_with_newline_ws, over the reversed view; the
singleton case is the iterator having reached begin. -/
def ewnwGo : Chars → Bool
  | [] => false
  | [c] => c = '\n'
  | c :: rest => if is_whitespace c then (if c = '\n' then true else ewnwGo rest) else c = '\n'

/-- str_utils::ends_with_newline_ws: the view ends with a newline followed
only by whitespace. -/
def ends_with_newline_ws (sv : Chars) : Bool := ewnwGo sv.reverse

/-! ## MML parser data model and parser (parse.hpp / parse.cpp)

parse.cpp assigns `Tag::TYPE` and brace-initializes Tag with (type,
origText, tagName, props, content); the shipped parse.hpp lacks the type
field, so the Tag here follows the .cpp's uses.  Views become the sliced
character lists themselves. -/

inductive TagType where
  | EOL
  | BRACE
  | BLOCK
deriving DecidableEq

inductive ALLOWED_TAGS where
  | ALL
  | BRACE_ONLY
deriving DecidableEq

/-- Element = variant<Content, Tag>; a Tag carries its exact source slice
`origText`, its props (name → accumulated values, in source order), its
parsed children when present, and the exact content slice `rawContent`. -/
inductive MmlElement where
  | content (text : Chars)
  | tag (ty : TagType) (origText : Chars) (tagName : Chars)
      (props : List (Chars × List Chars)) (contents : Option (List MmlElement))
      (rawContent : Option Chars)

/-- Document: owned source text plus the top-level elements. -/
structure MmlDocument where
  sourceText : Chars
  elements : List MmlElement

inductive MmlParseError where
  | NULL_INPUT
  | UNEXPECTED_CHARACTER
deriving DecidableEq

/-- The source slice a top-level element reproduces: `text` for Content,
`origText` for a Tag. -/
def elemText : MmlElement → Chars
  | .content t => t
  | .tag _ origText _ _ _ _ => origText

/-- props accumulation: `res[name].emplace_back(value)` — duplicate keys
append in source order. -/
def propsAdd (k : Chars) (v : Chars) : List (Chars × List Chars) → List (Chars × List Chars)
  | [] => [(k, [v])]
  | (k', vs) :: rest => if k' = k then (k', vs ++ [v]) :: rest else (k', vs) :: propsAdd k v rest

def propsFind (k : Chars) : List (Chars × List Chars) → Option (List Chars)
  | [] => none
  | (k', vs) :: rest => if k' = k then some vs else propsFind k rest

/-- parse.cpp's is_tag_name_char. -/
def is_tag_name_char (c : Char) : Bool :=
  ('a' ≤ c && c ≤ 'z') || ('A' ≤ c && c ≤ 'Z') || c = '_'

/-- parse.cpp's is_prop_name_char. -/
def is_prop_name_char (c : Char) : Bool :=
  ('a' ≤ c && c ≤ 'z') || ('A' ≤ c && c ≤ 'Z') || ('0' ≤ c && c ≤ '9') || c = '_'

/-- parse_props (parse.cpp lines 72-112) over [i, e): name, '=', then a
quoted or unquoted value; duplicate names accumulate.  One structural step
per property. -/
def parse_props (s : Chars) : Nat → Nat → Nat → List (Chars × List Chars) →
    Option (List (Chars × List Chars))
  | 0, _, _, _ => none
  | n + 1, i, e, acc =>
    if e ≤ i then some acc
    else
      let nameEnd := findIfNot s is_prop_name_char i e
      if nameEnd = i ∨ e ≤ nameEnd ∨ charAt s nameEnd ≠ '=' then none
      else
        let name := sliceStr s i nameEnd
        let valueStart := nameEnd + 1
        if charAt s valueStart = '"' then
          let vEnd := find_not_escaped s '"' (valueStart + 1) e
          if e ≤ vEnd then none
          else
            let value := sliceStr s (valueStart + 1) vEnd
            if vEnd + 1 ≠ e then
              if charAt s (vEnd + 1) ≠ ';' then none
              else
                parse_props s n (if vEnd + 1 = e then vEnd + 1 else vEnd + 2) e
                  (propsAdd name value acc)
            else parse_props s n (vEnd + 1) e (propsAdd name value acc)
        else
          let vEnd := find_not_escaped s ';' valueStart e
          if vEnd = valueStart then none
          else
            parse_props s n (if vEnd = e then vEnd else vEnd + 1) e
              (propsAdd name (sliceStr s valueStart vEnd) acc)

/-- parse_content (parse.cpp lines 38-54): a non-empty run up to the next
unescaped '~'. -/
def parse_content (s : Chars) (i e : Nat) : Option (MmlElement × Nat) :=
  if e ≤ i then none
  else if find_not_escaped s '~' i e = i then none
  else some (.content (sliceStr s i (find_not_escaped s '~' i e)), find_not_escaped s '~' i e)

mutual
/-- parse_element (parse.cpp lines 237-243): content first, else a tag. -/
def parse_element (fuel : Nat) (s : Chars) (i e : Nat) (allowedTags : ALLOWED_TAGS) :
    Option (MmlElement × Nat) :=
  match fuel with
  | 0 => none
  | n + 1 =>
    match parse_content s i e with
    | some r => some r
    | none => parse_tag n s i e allowedTags
termination_by structural fuel

/-- parse_elements (parse.cpp lines 23-36): elements until failure; succeeds
only when the whole range [i, e) was consumed. -/
def parse_elements (fuel : Nat) (s : Chars) (i e : Nat) (allowedTags : ALLOWED_TAGS) :
    Option (List MmlElement) :=
  match fuel with
  | 0 => none
  | n + 1 =>
    match parse_element n s i e allowedTags with
    | some (el, i') =>
      match parse_elements n s i' e allowedTags with
      | some rest => some (el :: rest)
      | none => none
    | none => if i = e then some [] else none
termination_by structural fuel

/-- The optional props segment of parse_tag (lines 150-166): at '[', scan
to the unquoted ']', parse the props, and resume after it; otherwise no
props and the segment start stays at the name end. -/
def parse_tag_props (s : Chars) (nameEnd e : Nat) : Option (List (Chars × List Chars) × Nat) :=
  if charAt s nameEnd = '[' then
    if e ≤ find_not_quoted s ']' nameEnd e then none
    else
      match parse_props s (e + 1) (nameEnd + 1) (find_not_quoted s ']' nameEnd e) [] with
      | some ps => some (ps, find_not_quoted s ']' nameEnd e + 1)
      | none => none
  else some ([], nameEnd)

/-- The closing-delimiter text of a BLOCK tag: "~" ++ delim ++ "~", where
delim is the first value of the "delim" prop when present, else the tag
name (parse.cpp lines 194-205). -/
def blockDelimSubstr (tagName : Chars) (props : List (Chars × List Chars)) : Chars :=
  match propsFind "delim".data props with
  | some (v :: _) => '~' :: (v ++ ['~'])
  | _ => '~' :: (tagName ++ ['~'])

/-- parse_tag (parse.cpp lines 114-235).  (The C++ names the repeated
subterms: nameEnd is the first non-name character after the '~', segStart
the position after the optional props.) -/
def parse_tag (fuel : Nat) (s : Chars) (i e : Nat) (allowedTags : ALLOWED_TAGS) :
    Option (MmlElement × Nat) :=
  match fuel with
  | 0 => none
  | n + 1 =>
    if e ≤ i then none
    else if charAt s i ≠ '~' then none
    else if e ≤ findIfNot s is_tag_name_char (i + 1) e then none
    else if charAt s (findIfNot s is_tag_name_char (i + 1) e) = '~' then
      some (.tag .EOL (sliceStr s i (findIfNot s is_tag_name_char (i + 1) e + 1))
        (sliceStr s (i + 1) (findIfNot s is_tag_name_char (i + 1) e)) [] none none,
        findIfNot s is_tag_name_char (i + 1) e + 1)
    else
      match parse_tag_props s (findIfNot s is_tag_name_char (i + 1) e) e with
      | none => none
      | some (props, segStart) =>
        if charAt s segStart = '~' then
          some (.tag .EOL (sliceStr s i (segStart + 1))
            (sliceStr s (i + 1) (findIfNot s is_tag_name_char (i + 1) e)) props none none,
            segStart + 1)
        else if charAt s segStart = '{' then
          if e ≤ find_not_escaped_stack s '}' '{' segStart e then none
          else
            some (.tag .BRACE
              (sliceStr s i (find_not_escaped_stack s '}' '{' segStart e + 1))
              (sliceStr s (i + 1) (findIfNot s is_tag_name_char (i + 1) e)) props
              (parse_elements n s (segStart + 1)
                (find_not_escaped_stack s '}' '{' segStart e) .BRACE_ONLY)
              (some (sliceStr s (segStart + 1)
                (find_not_escaped_stack s '}' '{' segStart e))),
              find_not_escaped_stack s '}' '{' segStart e + 1)
        else if allowedTags = .ALL then
          if e ≤ findCharFrom s '\n' segStart e ∨ findCharFrom s '\n' segStart e + 1 = e then
            none
          else
            blockScan n s e i (findCharFrom s '\n' segStart e + 1)
              (sliceStr s (i + 1) (findIfNot s is_tag_name_char (i + 1) e)) props
              (blockDelimSubstr
                (sliceStr s (i + 1) (findIfNot s is_tag_name_char (i + 1) e)) props)
              (findCharFrom s '\n' segStart e + 1)
              (find_after_newline_ws s '~' (findCharFrom s '\n' segStart e + 1) e) []
        else none
termination_by structural fuel

/-- The body-scanning loop of parse_tag's BLOCK branch (lines 202-231):
parse the chunk before each newline-led '~'; if the delimiter matches there
(with only whitespace trailing on its line) the tag closes, otherwise a
nested tag is parsed and the scan continues after it. -/
def blockScan (fuel : Nat) (s : Chars) (e tagStart contentStart : Nat) (tagName : Chars)
    (props : List (Chars × List Chars)) (substr : Chars) (lastTagSpot nextTagSpot : Nat)
    (acc : List MmlElement) : Option (MmlElement × Nat) :=
  match fuel with
  | 0 => none
  | n + 1 =>
    if e ≤ nextTagSpot then none
    else
      match parse_elements n s lastTagSpot (nextTagSpot - 1) .ALL with
      | none => none
      | some els =>
        if starts_with_trails_newline_ws s nextTagSpot e substr then
          some (.tag .BLOCK (sliceStr s tagStart (nextTagSpot + substr.length)) tagName props
            (some (acc ++ els)) (some (sliceStr s contentStart nextTagSpot)),
            nextTagSpot + substr.length)
        else
          match parse_tag n s nextTagSpot e .ALL with
          | none => none
          | some (tagEl, tagEnd) =>
            if e ≤ tagEnd then none
            else
              blockScan n s e tagStart contentStart tagName props substr tagEnd
                (find_after_newline_ws s '~' tagEnd e) (acc ++ els ++ [tagEl])
termination_by structural fuel
end

/-- The visitor of generator::parse::mml::parse (lines 260-263): the
allowed-tags state after a top-level element. -/
def allowed_after : MmlElement → ALLOWED_TAGS
  | .content t => if ends_with_newline_ws t then .ALL else .BRACE_ONLY
  | .tag ty origText _ _ _ _ =>
    if ends_with_newline_ws origText || ty = .BLOCK then .ALL else .BRACE_ONLY

/-- The top-level loop of parse (lines 259-265), threading the allowed-tags
state; succeeds only when the whole input was consumed (line 267). -/
def parseLoop (s : Chars) (e : Nat) : Nat → Nat → ALLOWED_TAGS → Option (List MmlElement)
  | 0, _, _ => none
  | n + 1, i, alw =>
    match parse_element n s i e alw with
    | some (el, i') =>
      match parseLoop s e n i' (allowed_after el) with
      | some rest => some (el :: rest)
      | none => none
    | none => if i = e then some [] else none
termination_by structural fuel _ _ => fuel

/-- Fuel ample for any input: the recursion consumes at least one character
(or one element) per unit along any path. -/
def mmlFuel (s : Chars) : Nat := 2 * s.length + 4

/-- generator::parse::mml::parse (lines 245-272) on a non-null text. -/
def mmlParse (s : Chars) : Except MmlParseError MmlDocument :=
  if s.isEmpty then .ok ⟨s, []⟩
  else
    match parseLoop s s.length (mmlFuel s) 0 .ALL with
    | some els => .ok ⟨s, els⟩
    | none => .error .UNEXPECTED_CHARACTER

/-! ## Value three-way comparison (Value::operator<=>, eval_engine.cpp
lines 48-96)

The comparison visits same-variant pairs through the listed overloads;
every other pair — including two Lists, two Funcs or two Macros, for which
the overload set has no case — falls to the generic lambda comparing variant
indices.  A disengaged left operand is less than any engaged one; when only
the right operand is disengaged the C++ dereferences the empty optional
(undefined behavior) — the model completes that case with `gt`, the dual of
the defined one. -/

/-- Modelled from the spec: the variant order of the richer header is not
under src/, so ranks follow the order the spec lists the admissible variants
in (§3.2).  Nil is least, as the C++ engagement check makes it.  The
theorems below depend only on ranks being distinct per variant. -/
def rank : Value → Nat
  | .vnil => 0
  | .vbool _ => 1
  | .vnum _ => 2
  | .vstr _ => 3
  | .vatom _ => 4
  | .vsym _ _ => 5
  | .vlist _ => 6
  | .vvec _ => 7
  | .vmap _ => 8
  | .vfunc _ _ _ _ => 9
  | .vmac _ _ _ => 10
  | .vnative _ _ => 11

/-- The double overload: lt when <, gt when >, else eq (NaN excluded, so Rat
carries the order). -/
def numCompare (a b : Rat) : Ordering :=
  if a < b then .lt else if b < a then .gt else .eq

/-- The bool overload compares the ints 0/1. -/
def boolCompare (a b : Bool) : Ordering :=
  if a = b then .eq else if a then .gt else .lt

/-- Modelled from the spec: the richer Symbol{ns?, token} (§3.2) ships
without its operator<=> (only the token-only variant's header is in src/);
ordered componentwise, an absent namespace first, both parts by byte
order. -/
def optNsCompare : Option Chars → Option Chars → Ordering
  | none, none => .eq
  | none, some _ => .lt
  | some _, none => .gt
  | some a, some b => bin_compare a b

def symCompare (ns1 : Option Chars) (t1 : Chars) (ns2 : Option Chars) (t2 : Chars) : Ordering :=
  match optNsCompare ns1 ns2 with
  | .eq => bin_compare t1 t2
  | o => o

mutual
/-- Value::operator<=>. -/
def cmpV : Value → Value → Ordering
  | .vbool a, .vbool b => boolCompare a b
  | .vnum a, .vnum b => numCompare a b
  | .vstr a, .vstr b => bin_compare a b
  | .vatom a, .vatom b => bin_compare a b
  | .vsym n1 t1, .vsym n2 t2 => symCompare n1 t1 n2 t2
  | .vvec xs, .vvec ys => cmpList xs ys
  | .vmap ps, .vmap qs => cmpPairs ps qs
  | .vnative a _, .vnative b _ => bin_compare a b
  | a, b => compare (rank a) (rank b)
termination_by a _ => sizeOf a

/-- The vector overload: elementwise, then by size (the C++ compares the
full sizes after walking the common prefix, which is the same thing). -/
def cmpList : List Value → List Value → Ordering
  | [], [] => .eq
  | [], _ :: _ => .lt
  | _ :: _, [] => .gt
  | x :: xs, y :: ys =>
    match cmpV x y with
    | .eq => cmpList xs ys
    | o => o
termination_by l _ => sizeOf l

/-- The map overload: ordered key/value pairs lexicographically, then by
size. -/
def cmpPairs : List (Value × Value) → List (Value × Value) → Ordering
  | [], [] => .eq
  | [], _ :: _ => .lt
  | _ :: _, [] => .gt
  | (k1, v1) :: xs, (k2, v2) :: ys =>
    match cmpV k1 k2 with
    | .eq =>
      match cmpV v1 v2 with
      | .eq => cmpPairs xs ys
      | o => o
    | o => o
termination_by l _ => sizeOf l
end

/-! ## Sexpr token-stream parser (Context::parse and getValue,
eval_engine.cpp lines 448-620)

Modelled from the token stream on: `Token` is the pair the lexer's
`str_to_token` builds. -/

inductive TokType where
  | PAREN_START
  | PAREN_END
  | BRACKET_START
  | BRACKET_END
  | BRACE_START
  | BRACE_END
  | NUMBER
  | ATOM
  | SYMBOL
  | STRING
  | NIL
  | TRUE
  | FALSE
  | INVALID
deriving DecidableEq

structure Token where
  type : TokType
  sv : Chars

structure SexprParseError where
  msg : Chars

/-- is_end_token. -/
def is_end_token : TokType → Bool
  | .BRACE_END => true
  | .BRACKET_END => true
  | .PAREN_END => true
  | _ => false

/-- is_start_token. -/
def is_start_token : TokType → Bool
  | .BRACE_START => true
  | .BRACKET_START => true
  | .PAREN_START => true
  | _ => false

/-- get_expected_end. -/
def get_expected_end : TokType → TokType
  | .BRACKET_START => .BRACKET_END
  | .BRACE_START => .BRACE_END
  | .PAREN_START => .PAREN_END
  | _ => .INVALID

/-- magic_enum::enum_name over the token kinds (for the structural check's
message). -/
def tokTypeName : TokType → Chars
  | .PAREN_START => "PAREN_START".data
  | .PAREN_END => "PAREN_END".data
  | .BRACKET_START => "BRACKET_START".data
  | .BRACKET_END => "BRACKET_END".data
  | .BRACE_START => "BRACE_START".data
  | .BRACE_END => "BRACE_END".data
  | .NUMBER => "NUMBER".data
  | .ATOM => "ATOM".data
  | .SYMBOL => "SYMBOL".data
  | .STRING => "STRING".data
  | .NIL => "NIL".data
  | .TRUE => "TRUE".data
  | .FALSE => "FALSE".data
  | .INVALID => "INVALID".data

/-- The pre-read structural scan of Context::parse (lines 597-609): start
tokens push their expected end, end tokens must match the top of the stack.
Whatever stack remains at the end of the stream is not examined. -/
def bracketCheck : List Token → List TokType → Except SexprParseError (List TokType)
  | [], st => .ok st
  | t :: ts, st =>
    if is_start_token t.type then bracketCheck ts (get_expected_end t.type :: st)
    else if is_end_token t.type then
      match st with
      | top :: rest =>
        if top = t.type then bracketCheck ts rest
        else .error ⟨"Unexpected token ".data ++ tokTypeName t.type⟩
      | [] => .error ⟨"Unexpected token ".data ++ tokTypeName t.type⟩
    else bracketCheck ts st

/-- The same scan as a pure stack transformer, for stating bracket pairing:
`bracketScanTok ts [] = some []` says every start token has a matching end
token of the same kind, properly nested, and none is left open. -/
def bracketScanTok : List Token → List TokType → Option (List TokType)
  | [], st => some st
  | t :: ts, st =>
    if is_start_token t.type then bracketScanTok ts (get_expected_end t.type :: st)
    else if is_end_token t.type then
      match st with
      | top :: rest => if top = t.type then bracketScanTok ts rest else none
      | [] => none
    else bracketScanTok ts st

/-- Every bracket start token has a matching end token of the same kind,
with proper nesting, across the whole stream. -/
def BalancedToks (ts : List Token) : Prop := bracketScanTok ts [] = some []

/-- strtod digits. -/
def digitsToNat (cs : Chars) : Nat := cs.foldl (fun a c => a * 10 + (c.toNat - 48)) 0

/-- strtod magnitude: integer part, optional fraction (exact for the decimal
shapes the lexer's NUMBER tokens take). -/
def parseNumMag (cs : Chars) : Rat :=
  let ip := cs.takeWhile Char.isDigit
  let rest := cs.drop ip.length
  let frac : Rat :=
    match rest with
    | '.' :: fr =>
      (digitsToNat (fr.takeWhile Char.isDigit) : Rat) / ((10 : Rat) ^ (fr.takeWhile Char.isDigit).length)
    | _ => 0
  (digitsToNat ip : Rat) + frac

/-- strtod with sign. -/
def parseNumber (cs : Chars) : Rat :=
  match cs with
  | '-' :: rest => - parseNumMag rest
  | '+' :: rest => parseNumMag rest
  | _ => parseNumMag cs

/-- unescape's first regex pass: backslash-t to HT. -/
def unescapeTabs : Chars → Chars
  | '\\' :: 't' :: rest => '\t' :: unescapeTabs rest
  | c :: rest => c :: unescapeTabs rest
  | [] => []

/-- unescape's second regex pass: optional backslash-r then backslash-n to
LF. -/
def unescapeNewlines : Chars → Chars
  | '\\' :: 'r' :: '\\' :: 'n' :: rest => '\n' :: unescapeNewlines rest
  | '\\' :: 'n' :: rest => '\n' :: unescapeNewlines rest
  | c :: rest => c :: unescapeNewlines rest
  | [] => []

/-- unescape's third regex pass: backslash-x to x. -/
def unescapeMisc : Chars → Chars
  | '\\' :: c :: rest => c :: unescapeMisc rest
  | c :: rest => c :: unescapeMisc rest
  | [] => []

/-- unescape (eval_engine.cpp lines 432-446): the three passes in order. -/
def unescapeStr (cs : Chars) : Chars := unescapeMisc (unescapeNewlines (unescapeTabs cs))

/-- SYMBOL token to Value: split on the last dot into (ns, token). -/
def splitSymbol (cs : Chars) : Value :=
  let revIdx := cs.reverse.findIdx (fun c => c = '.')
  if revIdx = cs.length then .vsym none cs
  else
    let pos := cs.length - 1 - revIdx
    .vsym (some (cs.take pos)) (cs.drop (pos + 1))

/-- std::map operator[] insertion into the ordered pair list: keys ordered
by cmpV; assignment to an equivalent key overwrites its value. -/
def mapInsert (k v : Value) : List (Value × Value) → List (Value × Value)
  | [] => [(k, v)]
  | (k', v') :: rest =>
    match cmpV k k' with
    | .lt => (k, v) :: (k', v') :: rest
    | .eq => (k', v) :: rest
    | .gt => (k', v') :: mapInsert k v rest

mutual
/-- getValue (lines 524-587): consume one token (the C++ reads and advances
unconditionally) and build a Value; bracket starts loop below.  Reading an
empty stream only happens through the loops' condition reads past the end —
undefined behavior in the C++ — and is modelled as a parse error. -/
def getValueTok : Nat → List Token → Except SexprParseError (Value × List Token)
  | 0, _ => .error ⟨"out of fuel".data⟩
  | _ + 1, [] => .error ⟨"dereferenced end iterator".data⟩
  | fuel + 1, t :: ts =>
    match t.type with
    | .PAREN_START => readSeqTok fuel .PAREN_END true ts []
    | .BRACKET_START => readSeqTok fuel .BRACKET_END false ts []
    | .BRACE_START => readMapTok fuel ts []
    | .NUMBER => .ok (.vnum (parseNumber t.sv), ts)
    | .ATOM => .ok (.vatom (t.sv.drop 1), ts)
    | .SYMBOL => .ok (splitSymbol t.sv, ts)
    | .STRING => .ok (.vstr (unescapeStr (t.sv.drop 1).dropLast), ts)
    | .NIL => .ok (.vnil, ts)
    | .TRUE => .ok (.vbool true, ts)
    | .FALSE => .ok (.vbool false, ts)
    | _ => .error ⟨"Invalid Token".data⟩
termination_by structural fuel _ => fuel

/-- The PAREN_START / BRACKET_START loops of getValue: values until the end
token (`asList` picks the List or Vector constructor). -/
def readSeqTok : Nat → TokType → Bool → List Token → List Value →
    Except SexprParseError (Value × List Token)
  | 0, _, _, _, _ => .error ⟨"out of fuel".data⟩
  | _ + 1, _, _, [], _ => .error ⟨"dereferenced end iterator".data⟩
  | fuel + 1, endTok, asList, t :: ts, acc =>
    if t.type = endTok then .ok (if asList then .vlist acc else .vvec acc, ts)
    else
      match getValueTok fuel (t :: ts) with
      | .error e => .error e
      | .ok (v, rest) => readSeqTok fuel endTok asList rest (acc ++ [v])
termination_by structural fuel _ _ _ _ => fuel

/-- The BRACE_START loop of getValue: key/value pairs until BRACE_END; a
key with no value is "Missing value in map". -/
def readMapTok : Nat → List Token → List (Value × Value) →
    Except SexprParseError (Value × List Token)
  | 0, _, _ => .error ⟨"out of fuel".data⟩
  | _ + 1, [], _ => .error ⟨"dereferenced end iterator".data⟩
  | fuel + 1, t :: ts, acc =>
    if t.type = .BRACE_END then .ok (.vmap acc, ts)
    else
      match getValueTok fuel (t :: ts) with
      | .error e => .error e
      | .ok (k, rest) =>
        match rest with
        | [] => .error ⟨"dereferenced end iterator".data⟩
        | t2 :: ts2 =>
          if t2.type = .BRACE_END then .error ⟨"Missing value in map".data⟩
          else
            match getValueTok fuel (t2 :: ts2) with
            | .error e => .error e
            | .ok (v, rest2) => readMapTok fuel rest2 (mapInsert k v acc)
termination_by structural fuel _ _ => fuel
end

/-- The read-everything loop at the bottom of Context::parse
(lines 611-617). -/
def readAllTokens : Nat → List Token → Except SexprParseError (List Value)
  | 0, _ => .error ⟨"out of fuel".data⟩
  | _ + 1, [] => .ok []
  | fuel + 1, t :: ts =>
    match getValueTok (fuel + 1) (t :: ts) with
    | .error e => .error e
    | .ok (v, rest) =>
      match readAllTokens fuel rest with
      | .ok vs => .ok (v :: vs)
      | .error e => .error e
termination_by structural fuel _ => fuel

/-- Context::parse from the token stream on: the structural bracket scan,
then the reader. -/
def sexprParse (ts : List Token) : Except SexprParseError (List Value) :=
  match bracketCheck ts [] with
  | .error e => .error e
  | .ok _ => readAllTokens (2 * ts.length + 4) ts

/-! ## Spec-side notions used by the theorem statements -/

/-- First hit of a candidate sequence (for stating resolution order). -/
def firstSome : List (Option Value) → Option Value
  | [] => none
  | some v :: _ => some v
  | none :: rest => firstSome rest

/-- The element is a BLOCK tag. -/
def isBlockTag : MmlElement → Bool
  | .tag .BLOCK _ _ _ _ _ => true
  | _ => false

/-- `SubElem sub el`: `sub` is `el` itself or a transitive member of its
content sequences. -/
inductive SubElem : MmlElement → MmlElement → Prop where
  | refl (e : MmlElement) : SubElem e e
  | child (sub c : MmlElement) (ty : TagType) (ot nm : Chars)
      (props : List (Chars × List Chars)) (cs : List MmlElement) (rc : Option Chars)
      (hc : c ∈ cs) (h : SubElem sub c) : SubElem sub (.tag ty ot nm props (some cs) rc)

/-- Every BRACE tag reachable inside `el` that has a content sequence tiles
its rawContent: the concatenated child texts are exactly the raw slice. -/
def BraceTiles (el : MmlElement) : Prop :=
  ∀ ot nm props cs rc,
    SubElem (.tag .BRACE ot nm props (some cs) rc) el →
      rc = some ((cs.map elemText).flatten)

/-! # Theorems -/

/-- C10: evaluating the empty List form () in any frame and state returns
Nil without error and without touching the state, rather than resolving a
callable head. -/
theorem c10_empty_list_evaluates_to_nil :
    ∀ (fuel : Nat) (s : EvalState) (fid : Nat),
      evalValueF (fuel + 1) s fid (.vlist []) = .ok (.vnil, s) := by
  intro fuel s fid
  simp [evalValueF]

/-- C5: the def native, applied to a Symbol qualified with the __native__
namespace, does not fail: it installs the binding into
symbols["__native__"] and returns Nil.  (The guard tests
sym.token.starts_with("__native__."), and tokens produced by the reader
never contain a dot, so it cannot fire; the claim and the guard's own error
message agree that this call should be rejected.) -/
theorem c5_def_into_native_namespace_succeeds :
    native_def initContext [.vsym (some "__native__".data) "x".data, .vnum 5] =
      .ok (.vnil, { initContext with
        symbols := nsSet "__native__".data "x".data (.vnum 5) initContext.symbols }) ∧
    alistGet "x".data (nsGet "__native__".data
      (nsSet "__native__".data "x".data (.vnum 5) initContext.symbols)) = some (.vnum 5) ∧
    startsWithChars "__native__.".data "x".data = false :=
  ⟨rfl, rfl, rfl⟩

/-- C6 counterexample: on the argument vector [Nil], str returns the empty
String but buf raises (it reads the disengaged optional) instead of
appending that text and returning Nil. -/
theorem c6_counterexample_nil_argument :
    native_str [Value.vnil] = .vstr [] ∧
    native_buf initContext [Value.vnil] = .error (.runtime "bad optional access".data) :=
  ⟨rfl, rfl⟩

theorem native_buf_cons_ne (s : EvalState) (a : Value) (rest : List Value)
    (ha : a ≠ .vnil) :
    native_buf s (a :: rest) = native_buf { s with buf := s.buf ++ strRender1 a } rest := by
  cases a <;> simp [native_buf, strRender1] at ha ⊢

/-- C6 (amended): for every argument vector containing no Nil value, the
String str returns is exactly the text buf appends to the buffer, and buf
returns Nil. -/
theorem c6_str_matches_buf_without_nil :
    ∀ (args : List Value) (s : EvalState), Value.vnil ∉ args →
      ∃ t, native_str args = .vstr t ∧
        native_buf s args = .ok (.vnil, { s with buf := s.buf ++ t }) := by
  intro args
  induction args with
  | nil =>
    intro s _
    exact ⟨[], by simp [native_str], by cases s; simp [native_buf]⟩
  | cons a rest ih =>
    intro s h
    have ha : a ≠ Value.vnil := by
      intro e
      exact h (e ▸ List.mem_cons_self a rest)
    have hrest : Value.vnil ∉ rest := fun hm => h (List.mem_cons_of_mem _ hm)
    obtain ⟨t', h1, h2⟩ := ih { s with buf := s.buf ++ strRender1 a } hrest
    refine ⟨strRender1 a ++ t', ?_, ?_⟩
    · have : (rest.map strRender1).flatten = t' := by
        have := h1
        simp [native_str] at this
        exact this
      simp [native_str, this]
    · rw [native_buf_cons_ne s a rest ha, h2]
      simp

/-- C6 witness: concrete arguments with no Nil, evaluated through the
amended theorem. -/
theorem c6_str_matches_buf_witness :
    Value.vnil ∉ [Value.vstr "Hello ".data, Value.vbool true] ∧
    ∃ t, native_str [Value.vstr "Hello ".data, Value.vbool true] = .vstr t ∧
      native_buf initContext [Value.vstr "Hello ".data, Value.vbool true] =
        .ok (.vnil, { initContext with buf := initContext.buf ++ t }) :=
  ⟨by simp, c6_str_matches_buf_without_nil _ initContext (by simp)⟩

theorem evalArgs_skip_ge :
    ∀ (args : List Value) (fuel : Nat) (s : EvalState) (fid skip : Nat),
      args.length ≤ skip → evalArgs fuel s fid skip args = .ok (args, s) := by
  intro args
  induction args with
  | nil => intro fuel s fid skip _; cases skip <;> simp [evalArgs]
  | cons a rest ih =>
    intro fuel s fid skip h
    cases skip with
    | zero => simp at h
    | succ sk =>
      have hs : rest.length ≤ sk := by simpa using h
      simp [evalArgs, ih fuel s fid sk hs]

theorem evalArgs_zero_eq_evalSeq :
    ∀ (args : List Value) (fuel : Nat) (s : EvalState) (fid : Nat),
      evalArgs fuel s fid 0 args = evalSeq fuel s fid args := by
  intro args
  induction args with
  | nil => intro fuel s fid; simp [evalArgs, evalSeq]
  | cons a rest ih =>
    intro fuel s fid
    simp only [evalArgs, evalSeq]
    cases evalValueF fuel s fid a with
    | error e => rfl
    | ok p =>
      obtain ⟨v, s'⟩ := p
      simp only
      rw [ih]

theorem evalArgs_take_drop :
    ∀ (args : List Value) (skip fuel : Nat) (s : EvalState) (fid : Nat),
      evalArgs fuel s fid skip args =
        match evalSeq fuel s fid (args.drop skip) with
        | .ok (vs, s') => .ok (args.take skip ++ vs, s')
        | .error e => .error e := by
  intro args
  induction args with
  | nil =>
    intro skip fuel s fid
    simp [evalArgs, evalSeq]
  | cons a rest ih =>
    intro skip fuel s fid
    cases skip with
    | zero =>
      rw [evalArgs_zero_eq_evalSeq]
      simp only [List.drop_zero, List.take_zero, List.nil_append]
      cases evalSeq fuel s fid (a :: rest) with
      | error e => rfl
      | ok p => rfl
    | succ sk =>
      simp only [evalArgs, List.drop_succ_cons, List.take_succ_cons]
      rw [ih sk fuel s fid]
      cases evalSeq fuel s fid (rest.drop sk) with
      | error e => rfl
      | ok p => rfl

/-- C4: the argument-evaluation skip rule.  For a List form whose head is a
NativeFunc literal: a registered name starting with "__" passes every
argument unevaluated (SIZE_MAX skips; the hypothesis bounds the vector by
SIZE_MAX, as any std::vector is); a name starting with "_" passes exactly
the first strtoull-of-the-rest arguments unevaluated and evaluates the rest
in order; a Macro head skips all; any other head value skips none, and a
zero skip count evaluates every argument in order. -/
theorem c4_argument_skip_rule :
    ∀ (fuel : Nat) (s : EvalState) (fid : Nat) (name : Chars) (tag : NativeTag)
      (args : List Value),
      (startsWithChars "__".data name = true → args.length ≤ USIZE_MAX →
        evalValueF (fuel + 2) s fid (.vlist (.vnative name tag :: args)) =
          callV (fuel + 1) s fid (.vnative name tag) args) ∧
      (startsWithChars "__".data name = false → startsWithChars "_".data name = true →
        evalValueF (fuel + 2) s fid (.vlist (.vnative name tag :: args)) =
          (match evalSeq (fuel + 1) s fid (args.drop (decDigitsVal (name.drop 1))) with
           | .ok (vs, s') => callV (fuel + 1) s' fid (.vnative name tag)
               (args.take (decDigitsVal (name.drop 1)) ++ vs)
           | .error e => .error e)) ∧
      (∀ (margs : List (Option Chars × Chars)) (mva : Option (Option Chars × Chars))
         (mst : List Value), args.length ≤ USIZE_MAX →
        evalValueF (fuel + 2) s fid (.vlist (.vmac margs mva mst :: args)) =
          callV (fuel + 1) s fid (.vmac margs mva mst) args) ∧
      (∀ m : Value, (∀ nm tg, m ≠ .vnative nm tg) →
        (∀ a b c, m ≠ .vmac a b c) → params_to_skip_eval_for m = 0) ∧
      (evalArgs (fuel + 1) s fid 0 args = evalSeq (fuel + 1) s fid args) := by
  intro fuel s fid name tag args
  refine ⟨?_, ?_, ?_, ?_, ?_⟩
  · intro h1 h2
    simp only [evalValueF, params_to_skip_eval_for, h1, if_true]
    rw [evalArgs_skip_ge args (fuel + 1) s fid USIZE_MAX h2]
  · intro h1 h2
    have hp : params_to_skip_eval_for (.vnative name tag) = decDigitsVal (name.drop 1) := by
      simp [params_to_skip_eval_for, h1, h2]
    simp only [evalValueF, hp]
    rw [evalArgs_take_drop args (decDigitsVal (name.drop 1)) (fuel + 1) s fid]
    cases evalSeq (fuel + 1) s fid (args.drop (decDigitsVal (name.drop 1))) with
    | error e => rfl
    | ok p => obtain ⟨vs, s'⟩ := p; rfl
  · intro margs mva mst h2
    simp only [evalValueF, params_to_skip_eval_for]
    rw [evalArgs_skip_ge args (fuel + 1) s fid USIZE_MAX h2]
  · intro m h1 h2
    cases m <;> simp [params_to_skip_eval_for]
    · exact absurd rfl (h2 _ _ _)
    · exact absurd rfl (h1 _ _)
  · exact evalArgs_zero_eq_evalSeq args (fuel + 1) s fid

/-- C4 witness: a double-underscore native head passes its single argument
through unevaluated (the unresolved symbol q would otherwise fail), at
concrete fuel and the fresh Context. -/
theorem c4_argument_skip_rule_witness :
    startsWithChars "__".data "__x".data = true ∧
    ([Value.vsym none "q".data] : List Value).length ≤ USIZE_MAX ∧
    evalValueF 7 initContext 0 (.vlist [.vnative "__x".data .nbuf, .vsym none "q".data]) =
      callV 6 initContext 0 (.vnative "__x".data .nbuf) [.vsym none "q".data] :=
  ⟨by decide, by decide,
    (c4_argument_skip_rule 5 initContext 0 "__x".data .nbuf [.vsym none "q".data]).1
      (by decide) (by decide)⟩

theorem firstSome_append :
    ∀ (a b : List (Option Value)),
      firstSome (a ++ b) =
        match firstSome a with
        | some v => some v
        | none => firstSome b := by
  intro a b
  induction a with
  | nil => simp [firstSome]
  | cons o rest ih => cases o <;> simp [firstSome, ih]

theorem frameLookup_eq_firstSome :
    ∀ (n : Nat) (frames : List FrameData) (fr : Option Nat) (tok : Chars),
      frameLookup frames n fr tok =
        firstSome ((frameChainCurrents frames n fr).map (alistGet tok)) := by
  intro n
  induction n with
  | zero => intro frames fr tok; simp [frameLookup, frameChainCurrents, firstSome]
  | succ m ih =>
    intro frames fr tok
    cases fr with
    | none => simp [frameLookup, frameChainCurrents, firstSome]
    | some fid =>
      simp only [frameLookup, frameChainCurrents]
      cases frames[fid]? with
      | none => simp [firstSome]
      | some fd =>
        simp only [List.map_cons]
        cases halist : alistGet tok fd.current with
        | none => simp [firstSome, ih]
        | some v => simp [firstSome]

theorem fallbackLookup_eq_firstSome :
    ∀ (l : List Chars) (symbols : List (Chars × List (Chars × Value))) (tok : Chars),
      fallbackLookup symbols l tok =
        firstSome (l.map fun ns => alistGet tok (nsGet ns symbols)) := by
  intro l
  induction l with
  | nil => intro symbols tok; simp [fallbackLookup, firstSome]
  | cons ns rest ih =>
    intro symbols tok
    simp only [fallbackLookup, List.map_cons]
    cases alistGet tok (nsGet ns symbols) with
    | none => simp [firstSome, ih]
    | some v => simp [firstSome]

/-- C3: symbol resolution.  An unqualified Symbol resolves to the first
binding in the candidate sequence formed by the frame chain from innermost
outward, then symbols[current_namespace], then each namespace of
fallbackNs[current_namespace] in order; a qualified Symbol consults only
symbols[ns][token]; a miss raises "Could not find symbol". -/
theorem c3_symbol_resolution_order :
    ∀ (fuel : Nat) (s : EvalState) (fid : Nat) (tok : Chars),
      (evalValueF (fuel + 1) s fid (.vsym none tok) =
        match
          firstSome
            (((frameChainCurrents s.frames (s.frames.length + 1) (some fid)).map
                (alistGet tok)) ++
              [alistGet tok (nsGet current_namespace s.symbols)] ++
              ((fallbackGet current_namespace s.fallbackNs).map
                (fun ns => alistGet tok (nsGet ns s.symbols)))) with
        | some v => .ok (v, s)
        | none => .error (.runtime ("Could not find symbol ".data ++ tok))) ∧
      (∀ ns : Chars,
        evalValueF (fuel + 1) s fid (.vsym (some ns) tok) =
          match alistGet tok (nsGet ns s.symbols) with
          | some v => .ok (v, s)
          | none => .error (.runtime ("Could not find symbol ".data ++ ns ++ '.' :: tok))) := by
  intro fuel s fid tok
  constructor
  · have hl : lookupUnqualified s fid tok =
        firstSome
          (((frameChainCurrents s.frames (s.frames.length + 1) (some fid)).map
              (alistGet tok)) ++
            [alistGet tok (nsGet current_namespace s.symbols)] ++
            ((fallbackGet current_namespace s.fallbackNs).map
              (fun ns => alistGet tok (nsGet ns s.symbols)))) := by
      rw [firstSome_append, firstSome_append, ← frameLookup_eq_firstSome,
        ← fallbackLookup_eq_firstSome]
      unfold lookupUnqualified
      cases frameLookup s.frames (s.frames.length + 1) (some fid) tok with
      | some v => simp
      | none =>
        simp only
        cases alistGet tok (nsGet current_namespace s.symbols) with
        | some v => simp [firstSome]
        | none => simp [firstSome]
    simp only [evalValueF, hl]
  · intro ns
    simp only [evalValueF]

/-- C7 counterexample: "~a\nx\n~a~" parses into a single BLOCK tag whose
source slice does not end with a newline followed only by whitespace, yet
the allowed-tags state after it is ALL (the parse loop's visitor also grants
ALL to every BLOCK tag), where the claim requires BRACE_ONLY. -/
theorem c7_counterexample_block_tag :
    mmlParse "~a\nx\n~a~".data =
      .ok ⟨"~a\nx\n~a~".data,
        [.tag .BLOCK "~a\nx\n~a~".data "a".data [] (some [.content "x".data])
          (some "x\n".data)]⟩ ∧
    allowed_after
      (.tag .BLOCK "~a\nx\n~a~".data "a".data [] (some [.content "x".data])
        (some "x\n".data)) = .ALL ∧
    ends_with_newline_ws
      (elemText (.tag .BLOCK "~a\nx\n~a~".data "a".data [] (some [.content "x".data])
        (some "x\n".data))) = false :=
  ⟨rfl, rfl, rfl⟩

/-- C7 (amended): the allowed-tags state the document loop threads (starting
at ALL) becomes ALL after an element exactly when that element's source
slice ends with a newline followed only by whitespace OR the element is a
BLOCK tag, and BRACE_ONLY otherwise. -/
theorem c7_allowed_tags_after_element :
    ∀ el : MmlElement,
      allowed_after el = .ALL ↔
        (ends_with_newline_ws (elemText el) = true ∨ isBlockTag el = true) := by
  intro el
  cases el with
  | content t =>
    simp only [allowed_after, elemText, isBlockTag]
    by_cases h : ends_with_newline_ws t <;> simp [h]
  | tag ty ot nm props cs rc =>
    simp only [allowed_after, elemText, isBlockTag]
    by_cases h : ends_with_newline_ws ot
    · cases ty <;> simp [h]
    · cases ty <;> simp [h]

theorem sliceStr_self (s : Chars) : sliceStr s 0 s.length = s := by
  simp [sliceStr]

theorem sliceStr_nil (s : Chars) (i : Nat) : sliceStr s i i = [] := by
  simp [sliceStr]

theorem sliceStr_append (s : Chars) {i j k : Nat} (h1 : i ≤ j) (h2 : j ≤ k) :
    sliceStr s i j ++ sliceStr s j k = sliceStr s i k := by
  unfold sliceStr
  have htj : (s.take k).take j = s.take j := by
    rw [List.take_take]
    congr 1
    omega
  have hsplit : s.take k = s.take j ++ (s.take k).drop j := by
    conv_lhs => rw [← List.take_append_drop j (s.take k)]
    rw [htj]
  conv_rhs => rw [hsplit]
  rw [List.drop_append_eq_append_drop]
  by_cases hc : i ≤ (s.take j).length
  · have hz : i - (s.take j).length = 0 := by omega
    rw [hz, List.drop_zero]
  · have hlen : (s.take j).length = min j s.length := by simp
    have hsl : s.length < i := by
      rcases Nat.lt_or_ge s.length i with h | h
      · exact h
      · exact absurd (by rw [hlen]; omega) hc
    have d1 : (s.take j).drop i = [] := by
      rw [List.drop_eq_nil_iff]
      simp
      omega
    have d2 : (s.take k).drop j = [] := by
      rw [List.drop_eq_nil_iff]
      simp
      omega
    rw [d1, d2]
    simp

theorem findCharFromAux_ge (s : Chars) (c : Char) :
    ∀ (n i : Nat), i ≤ findCharFromAux s c n i := by
  intro n
  induction n with
  | zero => intro i; simp [findCharFromAux]
  | succ m ih =>
    intro i
    simp only [findCharFromAux]
    split
    · exact le_refl i
    · exact le_trans (Nat.le_succ i) (ih (i + 1))

theorem findCharFromAux_le (s : Chars) (c : Char) :
    ∀ (n i : Nat), findCharFromAux s c n i ≤ i + n := by
  intro n
  induction n with
  | zero => intro i; simp [findCharFromAux]
  | succ m ih =>
    intro i
    simp only [findCharFromAux]
    split
    · omega
    · have := ih (i + 1)
      omega

theorem findCharFrom_ge (s : Chars) (c : Char) {i e : Nat} (h : i ≤ e) :
    i ≤ findCharFrom s c i e := by
  simp only [findCharFrom, if_pos h]
  exact findCharFromAux_ge s c (e - i) i

theorem findCharFrom_le (s : Chars) (c : Char) {i e : Nat} (h : i ≤ e) :
    findCharFrom s c i e ≤ e := by
  simp only [findCharFrom, if_pos h]
  have := findCharFromAux_le s c (e - i) i
  omega

theorem findIfNotAux_ge (s : Chars) (p : Char → Bool) :
    ∀ (n i : Nat), i ≤ findIfNotAux s p n i := by
  intro n
  induction n with
  | zero => intro i; simp [findIfNotAux]
  | succ m ih =>
    intro i
    simp only [findIfNotAux]
    split
    · exact le_trans (Nat.le_succ i) (ih (i + 1))
    · exact le_refl i

theorem findIfNotAux_le (s : Chars) (p : Char → Bool) :
    ∀ (n i : Nat), findIfNotAux s p n i ≤ i + n := by
  intro n
  induction n with
  | zero => intro i; simp [findIfNotAux]
  | succ m ih =>
    intro i
    simp only [findIfNotAux]
    split
    · have := ih (i + 1)
      omega
    · omega

theorem findIfNot_ge (s : Chars) (p : Char → Bool) {i e : Nat} (h : i ≤ e) :
    i ≤ findIfNot s p i e := by
  simp only [findIfNot, if_pos h]
  exact findIfNotAux_ge s p (e - i) i

theorem findIfNot_le (s : Chars) (p : Char → Bool) {i e : Nat} (h : i ≤ e) :
    findIfNot s p i e ≤ e := by
  simp only [findIfNot, if_pos h]
  have := findIfNotAux_le s p (e - i) i
  omega

theorem find_not_escaped_go_bounds (s : Chars) (look esc : Char) (e : Nat) :
    ∀ (n i : Nat), i ≤ e →
      i ≤ find_not_escaped_go s look esc e n i ∧ find_not_escaped_go s look esc e n i ≤ e := by
  intro n
  induction n with
  | zero => intro i h; simp [find_not_escaped_go]; omega
  | succ m ih =>
    intro i h
    simp only [find_not_escaped_go]
    have hge := findCharFrom_ge s look h
    have hle := findCharFrom_le s look h
    split
    · omega
    · split
      · omega
      · split
        · omega
        · have hlt : findCharFrom s look i e < e := by omega
          have := ih (findCharFrom s look i e + 1) (by omega)
          omega

theorem find_not_escaped_bounds (s : Chars) (look : Char) {i e : Nat} (h : i ≤ e) :
    i ≤ find_not_escaped s look i e ∧ find_not_escaped s look i e ≤ e :=
  find_not_escaped_go_bounds s look '\\' e (e + 1) i h

theorem find_not_quoted_go_bounds (s : Chars) (look : Char) :
    ∀ (n i : Nat) (q b : Bool),
      i ≤ find_not_quoted_go s look n i q b ∧ find_not_quoted_go s look n i q b ≤ i + n := by
  intro n
  induction n with
  | zero => intro i q b; simp [find_not_quoted_go]
  | succ m ih =>
    intro i q b
    simp only [find_not_quoted_go]
    split
    · omega
    · have := ih (i + 1) (q != (charAt s i = '"' && !b)) (charAt s i = '\\')
      omega

theorem find_not_quoted_bounds (s : Chars) (look : Char) {i e : Nat} (h : i ≤ e) :
    i ≤ find_not_quoted s look i e ∧ find_not_quoted s look i e ≤ e := by
  simp only [find_not_quoted, if_pos h]
  have := find_not_quoted_go_bounds s look (e - i) i false false
  omega

theorem find_not_escaped_stack_go_bounds (s : Chars) (look pair : Char) (e : Nat) :
    ∀ (n count curPos : Nat), curPos ≤ e →
      curPos ≤ find_not_escaped_stack_go s look pair e n count curPos ∧
        find_not_escaped_stack_go s look pair e n count curPos ≤ e := by
  intro n
  induction n with
  | zero => intro count curPos h; simp [find_not_escaped_stack_go]; omega
  | succ m ih =>
    intro count curPos h
    simp only [find_not_escaped_stack_go]
    split
    · omega
    · have hb := find_not_escaped_bounds s look h
      split
      · omega
      · split
        · omega
        · have hlt : find_not_escaped s look curPos e < e := by omega
          have := ih
            (count +
              countUnescapedGo s pair (find_not_escaped s look curPos e)
                (find_not_escaped s look curPos e + 1) curPos 0 - 1)
            (find_not_escaped s look curPos e + 1) (by omega)
          omega

theorem find_not_escaped_stack_bounds (s : Chars) (look pair : Char) {i e : Nat} (h : i ≤ e) :
    i ≤ find_not_escaped_stack s look pair i e ∧ find_not_escaped_stack s look pair i e ≤ e :=
  find_not_escaped_stack_go_bounds s look pair e (e + 1) 0 i h

theorem find_after_newline_ws_go_bounds (s : Chars) (look : Char) (e : Nat) :
    ∀ (n cur : Nat), cur ≤ e →
      cur ≤ find_after_newline_ws_go s look e n cur ∧
        find_after_newline_ws_go s look e n cur ≤ e := by
  intro n
  induction n with
  | zero => intro cur h; simp [find_after_newline_ws_go]; omega
  | succ m ih =>
    intro cur h
    simp only [find_after_newline_ws_go]
    split
    · omega
    · have h1 := findCharFrom_ge s '\n' h
      have h2 := findCharFrom_le s '\n' h
      split
      · omega
      · have hnl : findCharFrom s '\n' cur e < e := by omega
        have h3 := findCharFrom_ge s look (le_of_lt hnl)
        have h4 := findCharFrom_le s look (le_of_lt hnl)
        split
        · omega
        · have := ih (findCharFrom s '\n' cur e + 1) (by omega)
          omega

theorem find_after_newline_ws_bounds (s : Chars) (look : Char) {i e : Nat} (h : i ≤ e) :
    i ≤ find_after_newline_ws s look i e ∧ find_after_newline_ws s look i e ≤ e :=
  find_after_newline_ws_go_bounds s look e (e + 1) i h

theorem parse_tag_props_bounds {s : Chars} {nameEnd e : Nat}
    {props : List (Chars × List Chars)} {segStart : Nat}
    (h : parse_tag_props s nameEnd e = some (props, segStart)) (hne : nameEnd ≤ e) :
    nameEnd ≤ segStart ∧ segStart ≤ e := by
  unfold parse_tag_props at h
  split at h
  · split at h
    · exact absurd h (by simp)
    · split at h
      · have hb := find_not_quoted_bounds s ']' hne
        injection h with h'
        injection h' with h1 h2
        omega
      · exact absurd h (by simp)
  · injection h with h'
    injection h' with h1 h2
    omega

theorem braceTiles_content (t : Chars) : BraceTiles (.content t) := by
  intro ot nm props cs rc hsub
  cases hsub

theorem braceTiles_tag_none (ty : TagType) (ot nm : Chars)
    (pr : List (Chars × List Chars)) (rc : Option Chars) :
    BraceTiles (.tag ty ot nm pr none rc) := by
  intro ot' nm' props' cs' rc' hsub
  cases hsub

theorem braceTiles_block (ot nm : Chars) (pr : List (Chars × List Chars))
    (cs : List MmlElement) (rc : Option Chars) (h : ∀ c ∈ cs, BraceTiles c) :
    BraceTiles (.tag .BLOCK ot nm pr (some cs) rc) := by
  intro ot' nm' props' cs' rc' hsub
  cases hsub with
  | child c ty'' ot'' nm'' props'' cs'' rc'' hc hs => exact h c hc ot' nm' props' cs' rc' hs

theorem braceTiles_brace (ot nm : Chars) (pr : List (Chars × List Chars))
    (cs : List MmlElement) (raw : Chars) (h : ∀ c ∈ cs, BraceTiles c)
    (hr : (cs.map elemText).flatten = raw) :
    BraceTiles (.tag .BRACE ot nm pr (some cs) (some raw)) := by
  intro ot' nm' props' cs' rc' hsub
  cases hsub with
  | refl => rw [hr]
  | child c ty'' ot'' nm'' props'' cs'' rc'' hc hs => exact h c hc ot' nm' props' cs' rc' hs

theorem parse_content_spec {s : Chars} {i e : Nat} {el : MmlElement} {i' : Nat}
    (h : parse_content s i e = some (el, i')) :
    i < i' ∧ elemText el = sliceStr s i i' ∧ BraceTiles el := by
  unfold parse_content at h
  split at h
  · exact absurd h (by simp)
  · split at h
    · exact absurd h (by simp)
    · rename_i hei hend
      have hb := find_not_escaped_bounds s '~' (show i ≤ e by omega)
      injection h with h1
      injection h1 with hel hi'
      subst hel
      subst hi'
      exact ⟨by omega, rfl, braceTiles_content _⟩

theorem mml_parse_inv :
    ∀ fuel : Nat,
      (∀ (s : Chars) (i e : Nat) (alw : ALLOWED_TAGS) (el : MmlElement) (i' : Nat),
        parse_element fuel s i e alw = some (el, i') →
          i < i' ∧ elemText el = sliceStr s i i' ∧ BraceTiles el) ∧
      (∀ (s : Chars) (i e : Nat) (alw : ALLOWED_TAGS) (els : List MmlElement),
        parse_elements fuel s i e alw = some els →
          i ≤ e ∧ (els.map elemText).flatten = sliceStr s i e ∧ ∀ el ∈ els, BraceTiles el) ∧
      (∀ (s : Chars) (i e : Nat) (alw : ALLOWED_TAGS) (el : MmlElement) (i' : Nat),
        parse_tag fuel s i e alw = some (el, i') →
          i < i' ∧ elemText el = sliceStr s i i' ∧ BraceTiles el) ∧
      (∀ (s : Chars) (e tagStart contentStart : Nat) (tagName : Chars)
         (props : List (Chars × List Chars)) (substr : Chars)
         (lastTagSpot nextTagSpot : Nat) (acc : List MmlElement)
         (el : MmlElement) (i' : Nat),
        tagStart < nextTagSpot → (∀ c ∈ acc, BraceTiles c) →
        blockScan fuel s e tagStart contentStart tagName props substr lastTagSpot
            nextTagSpot acc = some (el, i') →
          tagStart < i' ∧ elemText el = sliceStr s tagStart i' ∧ BraceTiles el) := by
  intro fuel
  induction fuel with
  | zero =>
    refine ⟨?_, ?_, ?_, ?_⟩
    · intro s i e alw el i' h
      simp [parse_element] at h
    · intro s i e alw els h
      simp [parse_elements] at h
    · intro s i e alw el i' h
      simp [parse_tag] at h
    · intro s e a b c d f g j k el i' _ _ h
      simp [blockScan] at h
  | succ n ih =>
    obtain ⟨ih1, ih2, ih3, ih4⟩ := ih
    have part1 :
        ∀ (s : Chars) (i e : Nat) (alw : ALLOWED_TAGS) (el : MmlElement) (i' : Nat),
          parse_element (n + 1) s i e alw = some (el, i') →
            i < i' ∧ elemText el = sliceStr s i i' ∧ BraceTiles el := by
      intro s i e alw el i' h
      simp only [parse_element] at h
      split at h
      · rename_i r hc
        injection h with h1
        subst h1
        exact parse_content_spec hc
      · rename_i hc
        exact ih3 s i e alw el i' h
    have part2 :
        ∀ (s : Chars) (i e : Nat) (alw : ALLOWED_TAGS) (els : List MmlElement),
          parse_elements (n + 1) s i e alw = some els →
            i ≤ e ∧ (els.map elemText).flatten = sliceStr s i e ∧
              ∀ el ∈ els, BraceTiles el := by
      intro s i e alw els h
      simp only [parse_elements] at h
      split at h
      · rename_i el0 i0 hc
        split at h
        · rename_i rest hr
          injection h with h1
          subst h1
          obtain ⟨hlt, htext, htiles⟩ := ih1 s i e alw el0 i0 hc
          obtain ⟨hle, hflat, htiles'⟩ := ih2 s i0 e alw rest hr
          refine ⟨by omega, ?_, ?_⟩
          · simp only [List.map_cons, List.flatten_cons, htext, hflat]
            exact sliceStr_append s (by omega) hle
          · intro el hel
            rcases List.mem_cons.mp hel with h' | h'
            · subst h'
              exact htiles
            · exact htiles' el h'
        · exact absurd h (by simp)
      · rename_i hc
        split at h
        · rename_i hie
          injection h with h1
          subst h1
          subst hie
          exact ⟨le_refl i, by simp [sliceStr_nil], by simp⟩
        · exact absurd h (by simp)
    have part4 :
        ∀ (s : Chars) (e tagStart contentStart : Nat) (tagName : Chars)
           (props : List (Chars × List Chars)) (substr : Chars)
           (lastTagSpot nextTagSpot : Nat) (acc : List MmlElement)
           (el : MmlElement) (i' : Nat),
          tagStart < nextTagSpot → (∀ c ∈ acc, BraceTiles c) →
          blockScan (n + 1) s e tagStart contentStart tagName props substr lastTagSpot
              nextTagSpot acc = some (el, i') →
            tagStart < i' ∧ elemText el = sliceStr s tagStart i' ∧ BraceTiles el := by
      intro s e tagStart contentStart tagName props substr lastTagSpot nextTagSpot acc el i'
        hts hacc h
      simp only [blockScan] at h
      split at h
      · exact absurd h (by simp)
      · rename_i hnts
        split at h
        · exact absurd h (by simp)
        · rename_i els hels
          obtain ⟨_, _, htiles⟩ := ih2 s lastTagSpot (nextTagSpot - 1) .ALL els hels
          have hacc' : ∀ c ∈ acc ++ els, BraceTiles c := by
            intro c hcmem
            rcases List.mem_append.mp hcmem with h' | h'
            · exact hacc c h'
            · exact htiles c h'
          split at h
          · injection h with h1
            injection h1 with hel hi'
            subst hel
            subst hi'
            exact ⟨by omega, rfl, braceTiles_block _ _ _ _ _ hacc'⟩
          · split at h
            · exact absurd h (by simp)
            · rename_i tagEl tagEnd htag
              split at h
              · exact absurd h (by simp)
              · rename_i hte
                obtain ⟨hlt2, _, htiles2⟩ := ih3 s nextTagSpot e .ALL tagEl tagEnd htag
                have hb := find_after_newline_ws_bounds s '~' (show tagEnd ≤ e by omega)
                refine ih4 s e tagStart contentStart tagName props substr tagEnd
                  (find_after_newline_ws s '~' tagEnd e) (acc ++ els ++ [tagEl]) el i'
                  (by omega) ?_ h
                intro c hcmem
                rcases List.mem_append.mp hcmem with h' | h'
                · exact hacc' c h'
                · rw [List.mem_singleton.mp h']
                  exact htiles2
    have part3 :
        ∀ (s : Chars) (i e : Nat) (alw : ALLOWED_TAGS) (el : MmlElement) (i' : Nat),
          parse_tag (n + 1) s i e alw = some (el, i') →
            i < i' ∧ elemText el = sliceStr s i i' ∧ BraceTiles el := by
      intro s i e alw el i' h
      simp only [parse_tag] at h
      split at h
      · exact absurd h (by simp)
      · rename_i hie
        split at h
        · exact absurd h (by simp)
        · split at h
          · exact absurd h (by simp)
          · rename_i htilde hnee
            have hng := findIfNot_ge s is_tag_name_char (show i + 1 ≤ e by omega)
            split at h
            · injection h with h1
              injection h1 with hel hi'
              subst hel
              subst hi'
              exact ⟨by omega, rfl, braceTiles_tag_none _ _ _ _ _⟩
            · split at h
              · exact absurd h (by simp)
              · rename_i props segStart hm
                have hseg := parse_tag_props_bounds hm
                  (show findIfNot s is_tag_name_char (i + 1) e ≤ e by omega)
                split at h
                · injection h with h1
                  injection h1 with hel hi'
                  subst hel
                  subst hi'
                  exact ⟨by omega, rfl, braceTiles_tag_none _ _ _ _ _⟩
                · split at h
                  · rename_i hbrace
                    split at h
                    · exact absurd h (by simp)
                    · rename_i hce
                      have hsb := find_not_escaped_stack_bounds s '}' '{'
                        (show segStart ≤ e from hseg.2)
                      cases hinner : parse_elements n s (segStart + 1)
                          (find_not_escaped_stack s '}' '{' segStart e) .BRACE_ONLY with
                      | none =>
                        rw [hinner] at h
                        injection h with h1
                        injection h1 with hel hi'
                        subst hel
                        subst hi'
                        exact ⟨by omega, rfl, braceTiles_tag_none _ _ _ _ _⟩
                      | some inner =>
                        rw [hinner] at h
                        injection h with h1
                        injection h1 with hel hi'
                        subst hel
                        subst hi'
                        obtain ⟨_, hflat, htiles⟩ := ih2 _ _ _ _ _ hinner
                        exact ⟨by omega, rfl, braceTiles_brace _ _ _ _ _ htiles hflat⟩
                  · split at h
                    · rename_i hbrace hall
                      split at h
                      · exact absurd h (by simp)
                      · rename_i hnl
                        have hnlb1 := findCharFrom_ge s '\n' (show segStart ≤ e from hseg.2)
                        have hnlb2 := findCharFrom_le s '\n' (show segStart ≤ e from hseg.2)
                        have hcs : findCharFrom s '\n' segStart e + 1 ≤ e := by omega
                        have hfb := find_after_newline_ws_bounds s '~' hcs
                        exact ih4 s e i (findCharFrom s '\n' segStart e + 1) _ props _ _ _ [] el i'
                          (by omega) (by simp) h
                    · exact absurd h (by simp)
    exact ⟨part1, part2, part3, part4⟩

theorem parseLoop_inv :
    ∀ (fuel : Nat) (s : Chars) (e i : Nat) (alw : ALLOWED_TAGS) (els : List MmlElement),
      parseLoop s e fuel i alw = some els →
        i ≤ e ∧ (els.map elemText).flatten = sliceStr s i e ∧ ∀ el ∈ els, BraceTiles el := by
  intro fuel
  induction fuel with
  | zero => intro s e i alw els h; simp [parseLoop] at h
  | succ n ihl =>
    intro s e i alw els h
    simp only [parseLoop] at h
    split at h
    · rename_i el0 i0 hc
      split at h
      · rename_i rest hr
        injection h with h1
        subst h1
        obtain ⟨hlt, htext, htiles⟩ := (mml_parse_inv n).1 s i e alw el0 i0 hc
        obtain ⟨hle, hflat, htiles'⟩ := ihl s e i0 (allowed_after el0) rest hr
        refine ⟨by omega, ?_, ?_⟩
        · simp only [List.map_cons, List.flatten_cons, htext, hflat]
          exact sliceStr_append s (by omega) hle
        · intro el hel
          rcases List.mem_cons.mp hel with h' | h'
          · subst h'
            exact htiles
          · exact htiles' el h'
      · exact absurd h (by simp)
    · rename_i hc
      split at h
      · rename_i hie
        injection h with h1
        subst h1
        subst hie
        exact ⟨le_refl i, by simp [sliceStr_nil], by simp⟩
      · exact absurd h (by simp)

/-- C1: MML round trip.  Whenever parse succeeds, concatenating the source
slices of the Document's top-level elements — origText for Tags, text for
Content — reproduces the source text byte-exactly (and the Document owns
that source). -/
theorem c1_mml_roundtrip :
    ∀ (s : Chars) (doc : MmlDocument), mmlParse s = .ok doc →
      (doc.elements.map elemText).flatten = s ∧ doc.sourceText = s := by
  intro s doc h
  unfold mmlParse at h
  split at h
  · rename_i hemp
    injection h with h1
    subst h1
    simp
    exact List.isEmpty_iff.mp hemp
  · split at h
    · rename_i els hloop
      injection h with h1
      subst h1
      obtain ⟨_, hflat, _⟩ := parseLoop_inv (mmlFuel s) s s.length 0 .ALL els hloop
      simpa [sliceStr_self] using hflat
    · exact absurd h (by simp)

/-- C1 witness: a concrete document of one Content and one EOL tag. -/
theorem c1_mml_roundtrip_witness :
    mmlParse "ab~c~".data =
      .ok ⟨"ab~c~".data, [.content "ab".data, .tag .EOL "~c~".data "c".data [] none none]⟩ ∧
    (([.content "ab".data,
        .tag .EOL "~c~".data "c".data [] none none] : List MmlElement).map elemText).flatten =
      "ab~c~".data :=
  ⟨rfl,
    (c1_mml_roundtrip "ab~c~".data
      ⟨"ab~c~".data, [.content "ab".data, .tag .EOL "~c~".data "c".data [] none none]⟩ rfl).1⟩

/-- C2 counterexample: the BLOCK tag of "~a\nx\n~a~" has content
[Content "x"] and rawContent "x\n"; the concatenated child texts miss the
newline before the closing delimiter, so the tiling has a gap. -/
theorem c2_counterexample_block_gap :
    mmlParse "~a\nx\n~a~".data =
      .ok ⟨"~a\nx\n~a~".data,
        [.tag .BLOCK "~a\nx\n~a~".data "a".data [] (some [.content "x".data])
          (some "x\n".data)]⟩ ∧
    (([.content "x".data] : List MmlElement).map elemText).flatten ≠ "x\n".data :=
  ⟨rfl, by decide⟩

/-- C2 (amended): for every Tag produced by a successful MML parse, if the
tag is a BRACE tag with a content sequence then concatenating its children's
origText/text equals its rawContent exactly (no gaps, no overlaps).  For
BLOCK tags the code skips one character before the delimiter position of
each scan step, so their children do not tile rawContent (see the
counterexample). -/
theorem c2_brace_tags_tile :
    ∀ (s : Chars) (doc : MmlDocument), mmlParse s = .ok doc →
      ∀ el ∈ doc.elements, BraceTiles el := by
  intro s doc h
  unfold mmlParse at h
  split at h
  · injection h with h1
    subst h1
    simp
  · split at h
    · rename_i els hloop
      injection h with h1
      subst h1
      exact (parseLoop_inv (mmlFuel s) s s.length 0 .ALL els hloop).2.2
    · exact absurd h (by simp)

/-- C2 witness: the BRACE tag of "~t{ab~c~}" tiles its rawContent. -/
theorem c2_brace_tags_tile_witness :
    mmlParse "~t{ab~c~}".data =
      .ok ⟨"~t{ab~c~}".data,
        [.tag .BRACE "~t{ab~c~}".data "t".data []
          (some [.content "ab".data, .tag .EOL "~c~".data "c".data [] none none])
          (some "ab~c~".data)]⟩ ∧
    BraceTiles
      (.tag .BRACE "~t{ab~c~}".data "t".data []
        (some [.content "ab".data, .tag .EOL "~c~".data "c".data [] none none])
        (some "ab~c~".data)) :=
  ⟨rfl,
    c2_brace_tags_tile "~t{ab~c~}".data
      ⟨"~t{ab~c~}".data,
        [.tag .BRACE "~t{ab~c~}".data "t".data []
          (some [.content "ab".data, .tag .EOL "~c~".data "c".data [] none none])
          (some "ab~c~".data)]⟩ rfl _ (by simp)⟩

theorem bracketScanTok_append :
    ∀ (a b : List Token) (st : List TokType),
      bracketScanTok (a ++ b) st =
        match bracketScanTok a st with
        | some st' => bracketScanTok b st'
        | none => none := by
  intro a
  induction a with
  | nil => intro b st; simp [bracketScanTok]
  | cons t a' ih =>
    intro b st
    simp only [List.cons_append, bracketScanTok]
    by_cases h1 : is_start_token t.type = true
    · simp only [h1, if_true]
      exact ih b _
    · simp only [h1, if_false]
      by_cases h2 : is_end_token t.type = true
      · simp only [h2, if_true]
        cases st with
        | nil => rfl
        | cons top rest' =>
          by_cases h3 : top = t.type
          · simp only [h3, if_true]
            exact ih b rest'
          · simp only [h3, if_false]
            rfl
      · simp only [h2, if_false]
        exact ih b st

theorem is_start_of_end_false {tt : TokType} (h : is_end_token tt = true) :
    is_start_token tt = false := by
  cases tt <;> simp_all [is_end_token, is_start_token]

theorem reader_balanced :
    ∀ fuel : Nat,
      (∀ (ts : List Token) (v : Value) (rest : List Token),
        getValueTok fuel ts = .ok (v, rest) →
          ∃ pre, ts = pre ++ rest ∧ ∀ st, bracketScanTok pre st = some st) ∧
      (∀ (endTok : TokType) (asList : Bool) (ts : List Token) (acc : List Value)
         (v : Value) (rest : List Token), is_end_token endTok = true →
        readSeqTok fuel endTok asList ts acc = .ok (v, rest) →
          ∃ pre, ts = pre ++ rest ∧ ∀ st, bracketScanTok pre (endTok :: st) = some st) ∧
      (∀ (ts : List Token) (acc : List (Value × Value)) (v : Value) (rest : List Token),
        readMapTok fuel ts acc = .ok (v, rest) →
          ∃ pre, ts = pre ++ rest ∧
            ∀ st, bracketScanTok pre (TokType.BRACE_END :: st) = some st) := by
  intro fuel
  induction fuel with
  | zero =>
    refine ⟨?_, ?_, ?_⟩
    · intro ts v rest h
      simp [getValueTok] at h
    · intro endTok asList ts acc v rest _ h
      simp [readSeqTok] at h
    · intro ts acc v rest h
      simp [readMapTok] at h
  | succ n ih =>
    obtain ⟨ih1, ih2, ih3⟩ := ih
    have g1 :
        ∀ (ts : List Token) (v : Value) (rest : List Token),
          getValueTok (n + 1) ts = .ok (v, rest) →
            ∃ pre, ts = pre ++ rest ∧ ∀ st, bracketScanTok pre st = some st := by
      intro ts v rest h
      match ts with
      | [] => simp [getValueTok] at h
      | t :: ts' =>
        simp only [getValueTok] at h
        split at h
        all_goals rename_i htype
        case _ =>
          obtain ⟨pre', hpre, hscan⟩ := ih2 .PAREN_END true ts' [] v rest (by decide) h
          refine ⟨t :: pre', by simpa using hpre, ?_⟩
          intro st
          simp [bracketScanTok, htype, is_start_token, get_expected_end, hscan st]
        case _ =>
          obtain ⟨pre', hpre, hscan⟩ := ih2 .BRACKET_END false ts' [] v rest (by decide) h
          refine ⟨t :: pre', by simpa using hpre, ?_⟩
          intro st
          simp [bracketScanTok, htype, is_start_token, get_expected_end, hscan st]
        case _ =>
          obtain ⟨pre', hpre, hscan⟩ := ih3 ts' [] v rest h
          refine ⟨t :: pre', by simpa using hpre, ?_⟩
          intro st
          simp [bracketScanTok, htype, is_start_token, get_expected_end, hscan st]
        all_goals
          first
          | (injection h with h1
             injection h1 with hv hrest
             subst hrest
             exact ⟨[t], rfl, fun st => by
               simp [bracketScanTok, htype, is_start_token, is_end_token]⟩)
          | exact absurd h (by simp)
    have g2 :
        ∀ (endTok : TokType) (asList : Bool) (ts : List Token) (acc : List Value)
           (v : Value) (rest : List Token), is_end_token endTok = true →
          readSeqTok (n + 1) endTok asList ts acc = .ok (v, rest) →
            ∃ pre, ts = pre ++ rest ∧
              ∀ st, bracketScanTok pre (endTok :: st) = some st := by
      intro endTok asList ts acc v rest hend h
      match ts with
      | [] => simp [readSeqTok] at h
      | t :: ts' =>
        simp only [readSeqTok] at h
        split at h
        · rename_i hteq
          injection h with h1
          injection h1 with hv hrest
          subst hrest
          refine ⟨[t], rfl, fun st => ?_⟩
          simp [bracketScanTok, hteq, is_start_of_end_false hend, hend]
        · rename_i hteq
          cases hg : getValueTok n (t :: ts') with
          | error e => rw [hg] at h; exact absurd h (by simp)
          | ok p =>
            obtain ⟨v1, rest1⟩ := p
            rw [hg] at h
            obtain ⟨pre1, hpre1, hscan1⟩ := ih1 (t :: ts') v1 rest1 hg
            obtain ⟨pre2, hpre2, hscan2⟩ := ih2 endTok asList rest1 (acc ++ [v1]) v rest hend h
            refine ⟨pre1 ++ pre2, ?_, fun st => ?_⟩
            · rw [List.append_assoc, ← hpre2, ← hpre1]
            · rw [bracketScanTok_append, hscan1 (endTok :: st)]
              exact hscan2 st
    have g3 :
        ∀ (ts : List Token) (acc : List (Value × Value)) (v : Value) (rest : List Token),
          readMapTok (n + 1) ts acc = .ok (v, rest) →
            ∃ pre, ts = pre ++ rest ∧
              ∀ st, bracketScanTok pre (TokType.BRACE_END :: st) = some st := by
      intro ts acc v rest h
      match ts with
      | [] => simp [readMapTok] at h
      | t :: ts' =>
        simp only [readMapTok] at h
        split at h
        · rename_i hteq
          injection h with h1
          injection h1 with hv hrest
          subst hrest
          refine ⟨[t], rfl, fun st => ?_⟩
          simp [bracketScanTok, hteq, is_start_token, is_end_token]
        · rename_i hteq
          split at h
          · exact absurd h (by simp)
          · rename_i k rest1 hg
            cases rest1 with
            | nil => simp at h
            | cons t2 ts2 =>
              split at h
              · exact absurd h (by simp)
              · rename_i r0 t2b ts2b ht2
                injection ht2 with hv2 hrest2
                subst hv2
                subst hrest2
                split at h
                · exact absurd h (by simp)
                · rename_i hneq
                  split at h
                  · exact absurd h (by simp)
                  · rename_i x0 k2 rest3 hg2
                    obtain ⟨pre1, hpre1, hscan1⟩ := ih1 (t :: ts') k (t2 :: ts2) hg
                    obtain ⟨pre2, hpre2, hscan2⟩ := ih1 (t2 :: ts2) k2 rest3 hg2
                    obtain ⟨pre3, hpre3, hscan3⟩ := ih3 rest3 (mapInsert k k2 acc) v rest h
                    refine ⟨pre1 ++ (pre2 ++ pre3), ?_, fun st => ?_⟩
                    · rw [hpre1, hpre2, hpre3]
                      simp [List.append_assoc]
                    · rw [bracketScanTok_append, hscan1 (TokType.BRACE_END :: st)]
                      show bracketScanTok (pre2 ++ pre3) (TokType.BRACE_END :: st) = some st
                      rw [bracketScanTok_append, hscan2 (TokType.BRACE_END :: st)]
                      exact hscan3 st
    exact ⟨g1, g2, g3⟩

theorem readAllTokens_balanced :
    ∀ (fuel : Nat) (ts : List Token) (vs : List Value),
      readAllTokens fuel ts = .ok vs → ∀ st, bracketScanTok ts st = some st := by
  intro fuel
  induction fuel with
  | zero => intro ts vs h; simp [readAllTokens] at h
  | succ n ih =>
    intro ts vs h st
    match ts with
    | [] => simp [bracketScanTok]
    | t :: ts' =>
      simp only [readAllTokens] at h
      split at h
      · exact absurd h (by simp)
      · rename_i v1 rest1 hg
        split at h
        · rename_i vs1 hr
          obtain ⟨pre, hpre, hscan⟩ := (reader_balanced (n + 1)).1 (t :: ts') v1 rest1 hg
          rw [hpre, bracketScanTok_append, hscan st]
          exact ih rest1 vs1 hr st
        · exact absurd h (by simp)

/-- C8 counterexample: the token stream of "{1}" is balanced — every start
token has a matching end token of the same kind — yet the parser rejects it
("Missing value in map"), so acceptance is not equivalent to bracket
pairing. -/
theorem c8_counterexample_balanced_rejected :
    sexprParse [⟨.BRACE_START, "\x7b".data⟩, ⟨.NUMBER, "1".data⟩, ⟨.BRACE_END, "\x7d".data⟩] =
      .error ⟨"Missing value in map".data⟩ ∧
    BalancedToks [⟨.BRACE_START, "\x7b".data⟩, ⟨.NUMBER, "1".data⟩, ⟨.BRACE_END, "\x7d".data⟩] :=
  ⟨rfl, rfl⟩

/-- C8 (amended): acceptance implies bracket pairing — whenever the Sexpr
parser returns a ParseResult, every bracket start token of the stream has a
matching end token of the same kind, with proper nesting.  (The converse
fails: see the counterexample.) -/
theorem c8_accepted_streams_are_balanced :
    ∀ (ts : List Token) (vs : List Value), sexprParse ts = .ok vs → BalancedToks ts := by
  intro ts vs h
  unfold sexprParse at h
  split at h
  · exact absurd h (by simp)
  · exact readAllTokens_balanced (2 * ts.length + 4) ts vs h []

/-- C8 witness: a concrete accepted stream, "(:a)", shown balanced through
the theorem. -/
theorem c8_accepted_streams_are_balanced_witness :
    sexprParse [⟨.PAREN_START, "(".data⟩, ⟨.ATOM, ":a".data⟩, ⟨.PAREN_END, ")".data⟩] =
      .ok [.vlist [.vatom "a".data]] ∧
    BalancedToks [⟨.PAREN_START, "(".data⟩, ⟨.ATOM, ":a".data⟩, ⟨.PAREN_END, ")".data⟩] :=
  ⟨rfl, c8_accepted_streams_are_balanced _ [.vlist [.vatom "a".data]] rfl⟩

theorem char_toNat_inj {x y : Char} (h : x.toNat = y.toNat) : x = y := by
  have h2 : x.val = y.val := by
    unfold Char.toNat at h
    exact UInt32.toNat.inj h
  exact Char.ext h2

theorem natCompare_swap (a b : Nat) : (compare a b).swap = compare b a := by
  rcases Nat.lt_trichotomy a b with h | h | h
  · rw [Nat.compare_eq_lt.mpr h, Nat.compare_eq_gt.mpr h]
    rfl
  · subst h
    rw [Nat.compare_eq_eq.mpr rfl]
    rfl
  · rw [Nat.compare_eq_gt.mpr h, Nat.compare_eq_lt.mpr h]
    rfl

theorem bin_compare_refl : ∀ a : Chars, bin_compare a a = .eq := by
  intro a
  induction a with
  | nil => rfl
  | cons x xs ih => simp [bin_compare, ih]

theorem bin_compare_eq_iff : ∀ a b : Chars, bin_compare a b = .eq ↔ a = b := by
  intro a
  induction a with
  | nil =>
    intro b
    cases b <;> simp [bin_compare]
  | cons x xs ih =>
    intro b
    cases b with
    | nil => simp [bin_compare]
    | cons y ys =>
      simp only [bin_compare]
      by_cases hxy : x = y
      · subst hxy
        simp [ih]
      · simp only [hxy, if_false]
        constructor
        · intro h
          exact absurd (char_toNat_inj (Nat.compare_eq_eq.mp h)) hxy
        · intro h
          injection h with h1 h2
          exact absurd h1 hxy

theorem bin_compare_swap : ∀ a b : Chars, bin_compare a b = (bin_compare b a).swap := by
  intro a
  induction a with
  | nil => intro b; cases b <;> rfl
  | cons x xs ih =>
    intro b
    cases b with
    | nil => rfl
    | cons y ys =>
      simp only [bin_compare]
      by_cases hxy : x = y
      · subst hxy
        simp [ih]
      · have hyx : ¬(y = x) := fun e => hxy e.symm
        simp only [hxy, hyx, if_false]
        rw [natCompare_swap]

theorem bin_compare_lt_trans :
    ∀ a b c : Chars, bin_compare a b = .lt → bin_compare b c = .lt → bin_compare a c = .lt := by
  intro a
  induction a with
  | nil =>
    intro b c h1 h2
    cases b with
    | nil => simp [bin_compare] at h1
    | cons y ys =>
      cases c with
      | nil => simp [bin_compare] at h2
      | cons z zs => rfl
  | cons x xs ih =>
    intro b c h1 h2
    cases b with
    | nil => simp [bin_compare] at h1
    | cons y ys =>
      cases c with
      | nil => simp [bin_compare] at h2
      | cons z zs =>
        simp only [bin_compare] at h1 h2 ⊢
        by_cases hxy : x = y
        · subst hxy
          simp only [if_true] at h1
          by_cases hyz : x = z
          · subst hyz
            simp only [if_true] at h2 ⊢
            exact ih ys zs (by simpa using h1) (by simpa using h2)
          · simp only [hyz, if_false] at h2 ⊢
            exact h2
        · simp only [hxy, if_false] at h1
          have hlt1 : x.toNat < y.toNat := Nat.compare_eq_lt.mp h1
          by_cases hyz : y = z
          · subst hyz
            simp only [hxy, if_false]
            exact h1
          · simp only [hyz, if_false] at h2
            have hlt2 : y.toNat < z.toNat := Nat.compare_eq_lt.mp h2
            have hxz : ¬(x = z) := by
              intro e
              subst e
              omega
            simp only [hxz, if_false]
            exact Nat.compare_eq_lt.mpr (by omega)

theorem numCompare_refl (q : Rat) : numCompare q q = .eq := by
  simp [numCompare]

theorem numCompare_eq_iff (a b : Rat) : numCompare a b = .eq ↔ a = b := by
  unfold numCompare
  constructor
  · intro h
    split at h
    · exact absurd h (by simp)
    · split at h
      · exact absurd h (by simp)
      · rename_i h1 h2
        exact le_antisymm (not_lt.mp h2) (not_lt.mp h1)
  · intro h
    subst h
    simp

theorem numCompare_swap (a b : Rat) : numCompare a b = (numCompare b a).swap := by
  unfold numCompare
  rcases lt_trichotomy a b with h | h | h
  · rw [if_pos h, if_neg (not_lt.mpr (le_of_lt h)), if_pos h]
    rfl
  · subst h
    rw [if_neg (lt_irrefl a), if_neg (lt_irrefl a)]
    rfl
  · rw [if_neg (not_lt.mpr (le_of_lt h)), if_pos h, if_pos h]
    rfl

theorem numCompare_lt_trans {a b c : Rat} (h1 : numCompare a b = .lt)
    (h2 : numCompare b c = .lt) : numCompare a c = .lt := by
  unfold numCompare at h1 h2 ⊢
  split at h1
  · split at h2
    · rename_i hab hbc
      simp [lt_trans hab hbc]
    · split at h2
      · exact absurd h2 (by simp)
      · exact absurd h2 (by simp)
  · split at h1
    · exact absurd h1 (by simp)
    · exact absurd h1 (by simp)

theorem boolCompare_eq_iff : ∀ a b : Bool, boolCompare a b = .eq ↔ a = b := by decide

theorem boolCompare_swap : ∀ a b : Bool, boolCompare a b = (boolCompare b a).swap := by decide

theorem boolCompare_lt_trans :
    ∀ a b c : Bool, boolCompare a b = .lt → boolCompare b c = .lt → boolCompare a c = .lt := by
  decide

theorem optNsCompare_eq_iff : ∀ a b : Option Chars, optNsCompare a b = .eq ↔ a = b := by
  intro a b
  cases a <;> cases b <;> simp [optNsCompare, bin_compare_eq_iff]

theorem optNsCompare_swap : ∀ a b : Option Chars, optNsCompare a b = (optNsCompare b a).swap := by
  intro a b
  cases a with
  | none => cases b <;> rfl
  | some x =>
    cases b with
    | none => rfl
    | some y =>
      simp only [optNsCompare]
      exact bin_compare_swap x y

theorem optNsCompare_lt_trans :
    ∀ a b c : Option Chars,
      optNsCompare a b = .lt → optNsCompare b c = .lt → optNsCompare a c = .lt := by
  intro a b c h1 h2
  cases a <;> cases b <;> cases c <;>
    simp_all [optNsCompare]
  exact bin_compare_lt_trans _ _ _ h1 h2

theorem symCompare_eq_iff (n1 : Option Chars) (t1 : Chars) (n2 : Option Chars) (t2 : Chars) :
    symCompare n1 t1 n2 t2 = .eq ↔ (n1 = n2 ∧ t1 = t2) := by
  cases e : optNsCompare n1 n2 with
  | eq =>
    simp only [symCompare, e]
    constructor
    · intro h
      exact ⟨(optNsCompare_eq_iff n1 n2).mp e, (bin_compare_eq_iff t1 t2).mp h⟩
    · rintro ⟨h1, h2⟩
      subst h2
      exact (bin_compare_eq_iff t1 t1).mpr rfl
  | lt =>
    simp only [symCompare, e]
    constructor
    · intro h
      exact absurd h (by simp)
    · rintro ⟨h1, h2⟩
      subst h1
      rw [(optNsCompare_eq_iff n1 n1).mpr rfl] at e
      exact absurd e (by simp)
  | gt =>
    simp only [symCompare, e]
    constructor
    · intro h
      exact absurd h (by simp)
    · rintro ⟨h1, h2⟩
      subst h1
      rw [(optNsCompare_eq_iff n1 n1).mpr rfl] at e
      exact absurd e (by simp)

theorem symCompare_swap (n1 : Option Chars) (t1 : Chars) (n2 : Option Chars) (t2 : Chars) :
    symCompare n1 t1 n2 t2 = (symCompare n2 t2 n1 t1).swap := by
  cases h : optNsCompare n2 n1 with
  | eq =>
    have hn : n2 = n1 := (optNsCompare_eq_iff n2 n1).mp h
    subst hn
    simp only [symCompare, h]
    exact bin_compare_swap t1 t2
  | lt =>
    simp only [symCompare, optNsCompare_swap n1 n2, h]
    rfl
  | gt =>
    simp only [symCompare, optNsCompare_swap n1 n2, h]
    rfl

theorem symCompare_lt_trans {n1 n2 n3 : Option Chars} {t1 t2 t3 : Chars}
    (h1 : symCompare n1 t1 n2 t2 = .lt) (h2 : symCompare n2 t2 n3 t3 = .lt) :
    symCompare n1 t1 n3 t3 = .lt := by
  cases e1 : optNsCompare n1 n2 with
  | eq =>
    have hn : n1 = n2 := (optNsCompare_eq_iff n1 n2).mp e1
    subst hn
    simp only [symCompare, e1] at h1
    cases e2 : optNsCompare n1 n3 with
    | eq =>
      simp only [symCompare, e2] at h2 ⊢
      exact bin_compare_lt_trans _ _ _ h1 h2
    | lt =>
      simp only [symCompare, e2]
    | gt =>
      simp only [symCompare, e2] at h2
      exact absurd h2 (by simp)
  | lt =>
    cases e2 : optNsCompare n2 n3 with
    | eq =>
      have hn : n2 = n3 := (optNsCompare_eq_iff n2 n3).mp e2
      subst hn
      simp only [symCompare, e1]
    | lt =>
      simp only [symCompare, optNsCompare_lt_trans n1 n2 n3 e1 e2]
    | gt =>
      simp only [symCompare, e2] at h2
      exact absurd h2 (by simp)
  | gt =>
    simp only [symCompare, e1] at h1
    exact absurd h1 (by simp)

theorem cmpV_vnil_any (c : Value) : cmpV .vnil c = compare (rank .vnil) (rank c) := by
  cases c <;> simp [cmpV]

theorem cmpV_vlist_any (xs : List Value) (c : Value) :
    cmpV (.vlist xs) c = compare (rank (.vlist xs)) (rank c) := by
  cases c <;> simp [cmpV]

theorem cmpV_vfunc_any (p q r s) (c : Value) :
    cmpV (.vfunc p q r s) c = compare (rank (.vfunc p q r s)) (rank c) := by
  cases c <;> simp [cmpV]

theorem cmpV_vmac_any (p q r) (c : Value) :
    cmpV (.vmac p q r) c = compare (rank (.vmac p q r)) (rank c) := by
  cases c <;> simp [cmpV]

theorem cmpV_rank_ne : ∀ {a b : Value}, rank a ≠ rank b →
    cmpV a b = compare (rank a) (rank b) := by
  intro a b h
  cases a <;> cases b <;> first
    | (exact absurd rfl h)
    | simp [cmpV]

theorem cmpV_eq_rank {a b : Value} (h : cmpV a b = .eq) : rank a = rank b := by
  by_contra hne
  rw [cmpV_rank_ne hne] at h
  exact hne (Nat.compare_eq_eq.mp h)

theorem cmpV_lt_rank_le {a b : Value} (h : cmpV a b = .lt) : rank a ≤ rank b := by
  by_cases hne : rank a = rank b
  · exact le_of_eq hne
  · rw [cmpV_rank_ne hne] at h
    exact le_of_lt (Nat.compare_eq_lt.mp h)

theorem rank_lt_cmpV {a b : Value} (h : rank a < rank b) : cmpV a b = .lt := by
  rw [cmpV_rank_ne (Nat.ne_of_lt h)]
  exact Nat.compare_eq_lt.mpr h

theorem rank_inv0 {b : Value} (h : rank b = 0) : b = .vnil := by
  cases b <;> simp [rank] at h
  rfl

theorem rank_inv1 {b : Value} (h : rank b = 1) : ∃ x, b = .vbool x := by
  cases b <;> simp [rank] at h
  exact ⟨_, rfl⟩

theorem rank_inv2 {b : Value} (h : rank b = 2) : ∃ q, b = .vnum q := by
  cases b <;> simp [rank] at h
  exact ⟨_, rfl⟩

theorem rank_inv3 {b : Value} (h : rank b = 3) : ∃ s, b = .vstr s := by
  cases b <;> simp [rank] at h
  exact ⟨_, rfl⟩

theorem rank_inv4 {b : Value} (h : rank b = 4) : ∃ s, b = .vatom s := by
  cases b <;> simp [rank] at h
  exact ⟨_, rfl⟩

theorem rank_inv5 {b : Value} (h : rank b = 5) : ∃ n t, b = .vsym n t := by
  cases b <;> simp [rank] at h
  exact ⟨_, _, rfl⟩

theorem rank_inv6 {b : Value} (h : rank b = 6) : ∃ xs, b = .vlist xs := by
  cases b <;> simp [rank] at h
  exact ⟨_, rfl⟩

theorem rank_inv7 {b : Value} (h : rank b = 7) : ∃ xs, b = .vvec xs := by
  cases b <;> simp [rank] at h
  exact ⟨_, rfl⟩

theorem rank_inv8 {b : Value} (h : rank b = 8) : ∃ ps, b = .vmap ps := by
  cases b <;> simp [rank] at h
  exact ⟨_, rfl⟩

theorem rank_inv9 {b : Value} (h : rank b = 9) : ∃ p q r s, b = .vfunc p q r s := by
  cases b <;> simp [rank] at h
  exact ⟨_, _, _, _, rfl⟩

theorem rank_inv10 {b : Value} (h : rank b = 10) : ∃ p q r, b = .vmac p q r := by
  cases b <;> simp [rank] at h
  exact ⟨_, _, _, rfl⟩

theorem rank_inv11 {b : Value} (h : rank b = 11) : ∃ s t, b = .vnative s t := by
  cases b <;> simp [rank] at h
  exact ⟨_, _, rfl⟩

theorem cmpReflAux : ∀ n : Nat,
    (∀ a : Value, sizeOf a ≤ n → cmpV a a = .eq) ∧
    (∀ l : List Value, sizeOf l ≤ n → cmpList l l = .eq) ∧
    (∀ p : List (Value × Value), sizeOf p ≤ n → cmpPairs p p = .eq) := by
  intro n
  induction n using Nat.strong_induction_on with
  | _ n ih =>
    refine ⟨?_, ?_, ?_⟩
    · intro a hs
      cases a with
      | vnil => simp only [cmpV, rank]; decide
      | vbool x => simp only [cmpV]; exact (boolCompare_eq_iff x x).mpr rfl
      | vnum q => simp only [cmpV]; exact numCompare_refl q
      | vstr s => simp only [cmpV]; exact bin_compare_refl s
      | vatom s => simp only [cmpV]; exact bin_compare_refl s
      | vsym ns t => simp only [cmpV]; exact (symCompare_eq_iff ns t ns t).mpr ⟨rfl, rfl⟩
      | vlist xs => simp only [cmpV, rank]; decide
      | vvec xs =>
        simp only [cmpV]
        have hlt : sizeOf xs < n := by simp at hs; omega
        exact ((ih _ hlt).2.1) xs le_rfl
      | vmap ps =>
        simp only [cmpV]
        have hlt : sizeOf ps < n := by simp at hs; omega
        exact ((ih _ hlt).2.2) ps le_rfl
      | vfunc p q r s => simp only [cmpV, rank]; decide
      | vmac p q r => simp only [cmpV, rank]; decide
      | vnative s t => simp only [cmpV]; exact bin_compare_refl s
    · intro l hs
      cases l with
      | nil => simp only [cmpList]
      | cons x xs =>
        have hx : cmpV x x = .eq := by
          have hlt : sizeOf x < n := by simp at hs; omega
          exact (ih _ hlt).1 x le_rfl
        have hxs : cmpList xs xs = .eq := by
          have hlt : sizeOf xs < n := by simp at hs; omega
          exact (ih _ hlt).2.1 xs le_rfl
        simp only [cmpList, hx, hxs]
    · intro p hs
      cases p with
      | nil => simp only [cmpPairs]
      | cons kv ps =>
        obtain ⟨k, v⟩ := kv
        have hk : cmpV k k = .eq := by
          have hlt : sizeOf k < n := by simp at hs; omega
          exact (ih _ hlt).1 k le_rfl
        have hv : cmpV v v = .eq := by
          have hlt : sizeOf v < n := by simp at hs; omega
          exact (ih _ hlt).1 v le_rfl
        have hps : cmpPairs ps ps = .eq := by
          have hlt : sizeOf ps < n := by simp at hs; omega
          exact (ih _ hlt).2.2 ps le_rfl
        simp only [cmpPairs, hk, hv, hps]

theorem cmpV_refl (a : Value) : cmpV a a = .eq :=
  (cmpReflAux (sizeOf a)).1 a le_rfl

theorem cmpSwapAux : ∀ n : Nat,
    (∀ a b : Value, sizeOf a + sizeOf b ≤ n → cmpV a b = (cmpV b a).swap) ∧
    (∀ l m : List Value, sizeOf l + sizeOf m ≤ n → cmpList l m = (cmpList m l).swap) ∧
    (∀ p q : List (Value × Value), sizeOf p + sizeOf q ≤ n →
      cmpPairs p q = (cmpPairs q p).swap) := by
  intro n
  induction n using Nat.strong_induction_on with
  | _ n ih =>
    refine ⟨?_, ?_, ?_⟩
    · intro a b hs
      by_cases hr : rank a = rank b
      · cases a with
        | vnil =>
          have hb := rank_inv0 hr.symm
          subst hb
          simp only [cmpV, rank]
          decide
        | vbool x =>
          obtain ⟨y, rfl⟩ := rank_inv1 hr.symm
          simp only [cmpV]
          exact boolCompare_swap x y
        | vnum q =>
          obtain ⟨q2, rfl⟩ := rank_inv2 hr.symm
          simp only [cmpV]
          exact numCompare_swap q q2
        | vstr s =>
          obtain ⟨s2, rfl⟩ := rank_inv3 hr.symm
          simp only [cmpV]
          exact bin_compare_swap s s2
        | vatom s =>
          obtain ⟨s2, rfl⟩ := rank_inv4 hr.symm
          simp only [cmpV]
          exact bin_compare_swap s s2
        | vsym ns t =>
          obtain ⟨ns2, t2, rfl⟩ := rank_inv5 hr.symm
          simp only [cmpV]
          exact symCompare_swap ns t ns2 t2
        | vlist xs =>
          obtain ⟨ys, rfl⟩ := rank_inv6 hr.symm
          simp only [cmpV, rank]
          decide
        | vvec xs =>
          obtain ⟨ys, rfl⟩ := rank_inv7 hr.symm
          simp only [cmpV]
          have hlt : sizeOf xs + sizeOf ys < n := by simp at hs; omega
          exact (ih _ hlt).2.1 xs ys le_rfl
        | vmap ps =>
          obtain ⟨qs, rfl⟩ := rank_inv8 hr.symm
          simp only [cmpV]
          have hlt : sizeOf ps + sizeOf qs < n := by simp at hs; omega
          exact (ih _ hlt).2.2 ps qs le_rfl
        | vfunc p q r s =>
          obtain ⟨p2, q2, r2, s2, rfl⟩ := rank_inv9 hr.symm
          simp only [cmpV, rank]
          decide
        | vmac p q r =>
          obtain ⟨p2, q2, r2, rfl⟩ := rank_inv10 hr.symm
          simp only [cmpV, rank]
          decide
        | vnative s t =>
          obtain ⟨s2, t2, rfl⟩ := rank_inv11 hr.symm
          simp only [cmpV]
          exact bin_compare_swap s s2
      · rw [cmpV_rank_ne hr, cmpV_rank_ne (fun e => hr e.symm), natCompare_swap]
    · intro l m hs
      cases l with
      | nil => cases m <;> simp only [cmpList] <;> rfl
      | cons x xs =>
        cases m with
        | nil => simp only [cmpList]; rfl
        | cons y ys =>
          have he : cmpV x y = (cmpV y x).swap := by
            have hlt : sizeOf x + sizeOf y < n := by simp at hs; omega
            exact (ih _ hlt).1 x y le_rfl
          have ht : cmpList xs ys = (cmpList ys xs).swap := by
            have hlt : sizeOf xs + sizeOf ys < n := by simp at hs; omega
            exact (ih _ hlt).2.1 xs ys le_rfl
          simp only [cmpList, he]
          cases e : cmpV y x <;> simp only [Ordering.swap] <;> exact ht
    · intro p q hs
      cases p with
      | nil => cases q <;> simp only [cmpPairs] <;> rfl
      | cons kv ps =>
        obtain ⟨k1, v1⟩ := kv
        cases q with
        | nil => simp only [cmpPairs]; rfl
        | cons kv2 qs =>
          obtain ⟨k2, v2⟩ := kv2
          have hk : cmpV k1 k2 = (cmpV k2 k1).swap := by
            have hlt : sizeOf k1 + sizeOf k2 < n := by simp at hs; omega
            exact (ih _ hlt).1 k1 k2 le_rfl
          have hv : cmpV v1 v2 = (cmpV v2 v1).swap := by
            have hlt : sizeOf v1 + sizeOf v2 < n := by simp at hs; omega
            exact (ih _ hlt).1 v1 v2 le_rfl
          have ht : cmpPairs ps qs = (cmpPairs qs ps).swap := by
            have hlt : sizeOf ps + sizeOf qs < n := by simp at hs; omega
            exact (ih _ hlt).2.2 ps qs le_rfl
          simp only [cmpPairs, hk, hv]
          cases e1 : cmpV k2 k1 <;> cases e2 : cmpV v2 v1 <;>
            simp only [Ordering.swap] <;> exact ht

theorem cmpV_swap (a b : Value) : cmpV a b = (cmpV b a).swap :=
  (cmpSwapAux (sizeOf a + sizeOf b)).1 a b le_rfl

theorem cmpMasterAux : ∀ n : Nat,
    (∀ a b c : Value, sizeOf a + sizeOf b + sizeOf c ≤ n →
      (cmpV a b = .lt → cmpV b c = .lt → cmpV a c = .lt) ∧
      (cmpV a b = .eq → cmpV a c = cmpV b c)) ∧
    (∀ l m k : List Value, sizeOf l + sizeOf m + sizeOf k ≤ n →
      (cmpList l m = .lt → cmpList m k = .lt → cmpList l k = .lt) ∧
      (cmpList l m = .eq → cmpList l k = cmpList m k)) ∧
    (∀ p q r : List (Value × Value), sizeOf p + sizeOf q + sizeOf r ≤ n →
      (cmpPairs p q = .lt → cmpPairs q r = .lt → cmpPairs p r = .lt) ∧
      (cmpPairs p q = .eq → cmpPairs p r = cmpPairs q r)) := by
  intro n
  induction n using Nat.strong_induction_on with
  | _ n ih =>
    refine ⟨?_, ?_, ?_⟩
    · intro a b c hs
      constructor
      · intro h1 h2
        by_cases hac : rank a = rank c
        · have hab : rank a ≤ rank b := cmpV_lt_rank_le h1
          have hbc : rank b ≤ rank c := cmpV_lt_rank_le h2
          have hrab : rank a = rank b := by omega
          have hrbc : rank b = rank c := by omega
          cases a with
          | vnil =>
            have hb := rank_inv0 hrab.symm
            subst hb
            simp only [cmpV, rank] at h1
            exact absurd h1 (by decide)
          | vbool x =>
            obtain ⟨y, rfl⟩ := rank_inv1 hrab.symm
            obtain ⟨z, rfl⟩ := rank_inv1 hrbc.symm
            simp only [cmpV] at h1 h2 ⊢
            exact boolCompare_lt_trans x y z h1 h2
          | vnum q =>
            obtain ⟨q2, rfl⟩ := rank_inv2 hrab.symm
            obtain ⟨q3, rfl⟩ := rank_inv2 hrbc.symm
            simp only [cmpV] at h1 h2 ⊢
            exact numCompare_lt_trans h1 h2
          | vstr s =>
            obtain ⟨s2, rfl⟩ := rank_inv3 hrab.symm
            obtain ⟨s3, rfl⟩ := rank_inv3 hrbc.symm
            simp only [cmpV] at h1 h2 ⊢
            exact bin_compare_lt_trans _ _ _ h1 h2
          | vatom s =>
            obtain ⟨s2, rfl⟩ := rank_inv4 hrab.symm
            obtain ⟨s3, rfl⟩ := rank_inv4 hrbc.symm
            simp only [cmpV] at h1 h2 ⊢
            exact bin_compare_lt_trans _ _ _ h1 h2
          | vsym ns t =>
            obtain ⟨ns2, t2, rfl⟩ := rank_inv5 hrab.symm
            obtain ⟨ns3, t3, rfl⟩ := rank_inv5 hrbc.symm
            simp only [cmpV] at h1 h2 ⊢
            exact symCompare_lt_trans h1 h2
          | vlist xs =>
            obtain ⟨ys, rfl⟩ := rank_inv6 hrab.symm
            simp only [cmpV, rank] at h1
            exact absurd h1 (by decide)
          | vvec xs =>
            obtain ⟨ys, rfl⟩ := rank_inv7 hrab.symm
            obtain ⟨zs, rfl⟩ := rank_inv7 hrbc.symm
            simp only [cmpV] at h1 h2 ⊢
            have hlt : sizeOf xs + sizeOf ys + sizeOf zs < n := by simp at hs; omega
            exact ((ih _ hlt).2.1 xs ys zs le_rfl).1 h1 h2
          | vmap ps =>
            obtain ⟨qs, rfl⟩ := rank_inv8 hrab.symm
            obtain ⟨rs, rfl⟩ := rank_inv8 hrbc.symm
            simp only [cmpV] at h1 h2 ⊢
            have hlt : sizeOf ps + sizeOf qs + sizeOf rs < n := by simp at hs; omega
            exact ((ih _ hlt).2.2 ps qs rs le_rfl).1 h1 h2
          | vfunc p q r s =>
            obtain ⟨p2, q2, r2, s2, rfl⟩ := rank_inv9 hrab.symm
            simp only [cmpV, rank] at h1
            exact absurd h1 (by decide)
          | vmac p q r =>
            obtain ⟨p2, q2, r2, rfl⟩ := rank_inv10 hrab.symm
            simp only [cmpV, rank] at h1
            exact absurd h1 (by decide)
          | vnative s t =>
            obtain ⟨s2, t2, rfl⟩ := rank_inv11 hrab.symm
            obtain ⟨s3, t3, rfl⟩ := rank_inv11 hrbc.symm
            simp only [cmpV] at h1 h2 ⊢
            exact bin_compare_lt_trans _ _ _ h1 h2
        · have hab : rank a ≤ rank b := cmpV_lt_rank_le h1
          have hbc : rank b ≤ rank c := cmpV_lt_rank_le h2
          exact rank_lt_cmpV (by omega)
      · intro hab
        have hr : rank a = rank b := cmpV_eq_rank hab
        cases a with
        | vnil =>
          have hb := rank_inv0 hr.symm
          subst hb
          rfl
        | vbool x =>
          obtain ⟨y, rfl⟩ := rank_inv1 hr.symm
          simp only [cmpV] at hab
          obtain rfl := (boolCompare_eq_iff x y).mp hab
          rfl
        | vnum q =>
          obtain ⟨q2, rfl⟩ := rank_inv2 hr.symm
          simp only [cmpV] at hab
          obtain rfl := (numCompare_eq_iff q q2).mp hab
          rfl
        | vstr s =>
          obtain ⟨s2, rfl⟩ := rank_inv3 hr.symm
          simp only [cmpV] at hab
          obtain rfl := (bin_compare_eq_iff s s2).mp hab
          rfl
        | vatom s =>
          obtain ⟨s2, rfl⟩ := rank_inv4 hr.symm
          simp only [cmpV] at hab
          obtain rfl := (bin_compare_eq_iff s s2).mp hab
          rfl
        | vsym ns t =>
          obtain ⟨ns2, t2, rfl⟩ := rank_inv5 hr.symm
          simp only [cmpV] at hab
          obtain ⟨rfl, rfl⟩ := (symCompare_eq_iff ns t ns2 t2).mp hab
          rfl
        | vlist xs =>
          obtain ⟨ys, rfl⟩ := rank_inv6 hr.symm
          rw [cmpV_vlist_any, cmpV_vlist_any]
          simp only [rank]
        | vvec xs =>
          obtain ⟨ys, rfl⟩ := rank_inv7 hr.symm
          simp only [cmpV] at hab
          by_cases hc : rank c = 7
          · obtain ⟨zs, rfl⟩ := rank_inv7 hc
            simp only [cmpV]
            have hlt : sizeOf xs + sizeOf ys + sizeOf zs < n := by simp at hs; omega
            exact ((ih _ hlt).2.1 xs ys zs le_rfl).2 hab
          · have hne1 : rank (Value.vvec xs) ≠ rank c :=
              fun e => hc (show rank c = 7 from e.symm)
            have hne2 : rank (Value.vvec ys) ≠ rank c :=
              fun e => hc (show rank c = 7 from e.symm)
            rw [cmpV_rank_ne hne1, cmpV_rank_ne hne2]
            simp only [rank]
        | vmap ps =>
          obtain ⟨qs, rfl⟩ := rank_inv8 hr.symm
          simp only [cmpV] at hab
          by_cases hc : rank c = 8
          · obtain ⟨rs, rfl⟩ := rank_inv8 hc
            simp only [cmpV]
            have hlt : sizeOf ps + sizeOf qs + sizeOf rs < n := by simp at hs; omega
            exact ((ih _ hlt).2.2 ps qs rs le_rfl).2 hab
          · have hne1 : rank (Value.vmap ps) ≠ rank c :=
              fun e => hc (show rank c = 8 from e.symm)
            have hne2 : rank (Value.vmap qs) ≠ rank c :=
              fun e => hc (show rank c = 8 from e.symm)
            rw [cmpV_rank_ne hne1, cmpV_rank_ne hne2]
            simp only [rank]
        | vfunc p q r s =>
          obtain ⟨p2, q2, r2, s2, rfl⟩ := rank_inv9 hr.symm
          rw [cmpV_vfunc_any, cmpV_vfunc_any]
          simp only [rank]
        | vmac p q r =>
          obtain ⟨p2, q2, r2, rfl⟩ := rank_inv10 hr.symm
          rw [cmpV_vmac_any, cmpV_vmac_any]
          simp only [rank]
        | vnative s t =>
          obtain ⟨s2, t2, rfl⟩ := rank_inv11 hr.symm
          simp only [cmpV] at hab
          obtain rfl := (bin_compare_eq_iff s s2).mp hab
          by_cases hc : rank c = 11
          · obtain ⟨s3, t3, rfl⟩ := rank_inv11 hc
            simp only [cmpV]
          · have hne1 : rank (Value.vnative s t) ≠ rank c :=
              fun e => hc (show rank c = 11 from e.symm)
            have hne2 : rank (Value.vnative s t2) ≠ rank c :=
              fun e => hc (show rank c = 11 from e.symm)
            rw [cmpV_rank_ne hne1, cmpV_rank_ne hne2]
            simp only [rank]
    · intro l m k hs
      constructor
      · intro h1 h2
        cases l with
        | nil =>
          cases m with
          | nil => simp [cmpList] at h1
          | cons y ms =>
            cases k with
            | nil => simp [cmpList] at h2
            | cons z ks => simp only [cmpList]
        | cons x ls =>
          cases m with
          | nil => simp [cmpList] at h1
          | cons y ms =>
            cases k with
            | nil => simp [cmpList] at h2
            | cons z ks =>
              simp only [cmpList] at h1 h2 ⊢
              have hltE : sizeOf x + sizeOf y + sizeOf z < n := by simp at hs; omega
              have hltP : sizeOf y + sizeOf z + sizeOf x < n := by simp at hs; omega
              have hltT : sizeOf ls + sizeOf ms + sizeOf ks < n := by simp at hs; omega
              cases e1 : cmpV x y with
              | eq =>
                simp only [e1] at h1
                cases e2 : cmpV y z with
                | eq =>
                  simp only [e2] at h2
                  have hxz : cmpV x z = .eq :=
                    (((ih _ hltE).1 x y z le_rfl).2 e1).trans e2
                  simp only [hxz]
                  exact ((ih _ hltT).2.1 ls ms ks le_rfl).1 h1 h2
                | lt =>
                  have hxz : cmpV x z = .lt :=
                    (((ih _ hltE).1 x y z le_rfl).2 e1).trans e2
                  simp only [hxz]
                | gt => simp [e2] at h2
              | lt =>
                cases e2 : cmpV y z with
                | eq =>
                  have hyx : cmpV y x = cmpV z x := ((ih _ hltP).1 y z x le_rfl).2 e2
                  have hxz : cmpV x z = .lt := by
                    rw [cmpV_swap x z, ← hyx, ← cmpV_swap x y, e1]
                  simp only [hxz]
                | lt =>
                  have hxz : cmpV x z = .lt := ((ih _ hltE).1 x y z le_rfl).1 e1 e2
                  simp only [hxz]
                | gt => simp [e2] at h2
              | gt => simp [e1] at h1
      · intro h12
        cases l with
        | nil =>
          cases m with
          | nil => rfl
          | cons y ms => simp [cmpList] at h12
        | cons x ls =>
          cases m with
          | nil => simp [cmpList] at h12
          | cons y ms =>
            simp only [cmpList] at h12
            cases e1 : cmpV x y with
            | eq =>
              simp only [e1] at h12
              cases k with
              | nil => simp only [cmpList]
              | cons z ks =>
                simp only [cmpList]
                have hltE : sizeOf x + sizeOf y + sizeOf z < n := by simp at hs; omega
                have hltT : sizeOf ls + sizeOf ms + sizeOf ks < n := by simp at hs; omega
                have hxz : cmpV x z = cmpV y z := ((ih _ hltE).1 x y z le_rfl).2 e1
                rw [hxz]
                cases e2 : cmpV y z with
                | eq =>
                  simp only [e2]
                  exact ((ih _ hltT).2.1 ls ms ks le_rfl).2 h12
                | lt => simp only [e2]
                | gt => simp only [e2]
            | lt => simp [e1] at h12
            | gt => simp [e1] at h12
    · intro p q r hs
      constructor
      · intro h1 h2
        cases p with
        | nil =>
          cases q with
          | nil => simp [cmpPairs] at h1
          | cons q1 qs =>
            cases r with
            | nil => simp [cmpPairs] at h2
            | cons r1 rs =>
              obtain ⟨k3, v3⟩ := r1
              simp only [cmpPairs]
        | cons p1 ps =>
          obtain ⟨k1, v1⟩ := p1
          cases q with
          | nil => simp [cmpPairs] at h1
          | cons q1 qs =>
            obtain ⟨k2, v2⟩ := q1
            cases r with
            | nil => simp [cmpPairs] at h2
            | cons r1 rs =>
              obtain ⟨k3, v3⟩ := r1
              simp only [cmpPairs] at h1 h2 ⊢
              have hltK : sizeOf k1 + sizeOf k2 + sizeOf k3 < n := by simp at hs; omega
              have hltKP : sizeOf k2 + sizeOf k3 + sizeOf k1 < n := by simp at hs; omega
              have hltV : sizeOf v1 + sizeOf v2 + sizeOf v3 < n := by simp at hs; omega
              have hltVP : sizeOf v2 + sizeOf v3 + sizeOf v1 < n := by simp at hs; omega
              have hltT : sizeOf ps + sizeOf qs + sizeOf rs < n := by simp at hs; omega
              cases e1k : cmpV k1 k2 with
              | eq =>
                simp only [e1k] at h1
                cases e2k : cmpV k2 k3 with
                | eq =>
                  simp only [e2k] at h2
                  have hk13 : cmpV k1 k3 = .eq :=
                    (((ih _ hltK).1 k1 k2 k3 le_rfl).2 e1k).trans e2k
                  simp only [hk13]
                  cases e1v : cmpV v1 v2 with
                  | eq =>
                    simp only [e1v] at h1
                    cases e2v : cmpV v2 v3 with
                    | eq =>
                      simp only [e2v] at h2
                      have hv13 : cmpV v1 v3 = .eq :=
                        (((ih _ hltV).1 v1 v2 v3 le_rfl).2 e1v).trans e2v
                      simp only [hv13]
                      exact ((ih _ hltT).2.2 ps qs rs le_rfl).1 h1 h2
                    | lt =>
                      have hv13 : cmpV v1 v3 = .lt :=
                        (((ih _ hltV).1 v1 v2 v3 le_rfl).2 e1v).trans e2v
                      simp only [hv13]
                    | gt => simp [e2v] at h2
                  | lt =>
                    cases e2v : cmpV v2 v3 with
                    | eq =>
                      have hvy : cmpV v2 v1 = cmpV v3 v1 :=
                        ((ih _ hltVP).1 v2 v3 v1 le_rfl).2 e2v
                      have hv13 : cmpV v1 v3 = .lt := by
                        rw [cmpV_swap v1 v3, ← hvy, ← cmpV_swap v1 v2, e1v]
                      simp only [hv13]
                    | lt =>
                      have hv13 : cmpV v1 v3 = .lt :=
                        ((ih _ hltV).1 v1 v2 v3 le_rfl).1 e1v e2v
                      simp only [hv13]
                    | gt => simp [e2v] at h2
                  | gt => simp [e1v] at h1
                | lt =>
                  have hk13 : cmpV k1 k3 = .lt :=
                    (((ih _ hltK).1 k1 k2 k3 le_rfl).2 e1k).trans e2k
                  simp only [hk13]
                | gt => simp [e2k] at h2
              | lt =>
                cases e2k : cmpV k2 k3 with
                | eq =>
                  have hky : cmpV k2 k1 = cmpV k3 k1 :=
                    ((ih _ hltKP).1 k2 k3 k1 le_rfl).2 e2k
                  have hk13 : cmpV k1 k3 = .lt := by
                    rw [cmpV_swap k1 k3, ← hky, ← cmpV_swap k1 k2, e1k]
                  simp only [hk13]
                | lt =>
                  have hk13 : cmpV k1 k3 = .lt :=
                    ((ih _ hltK).1 k1 k2 k3 le_rfl).1 e1k e2k
                  simp only [hk13]
                | gt => simp [e2k] at h2
              | gt => simp [e1k] at h1
      · intro h12
        cases p with
        | nil =>
          cases q with
          | nil => rfl
          | cons q1 qs => simp [cmpPairs] at h12
        | cons p1 ps =>
          obtain ⟨k1, v1⟩ := p1
          cases q with
          | nil => simp [cmpPairs] at h12
          | cons q1 qs =>
            obtain ⟨k2, v2⟩ := q1
            simp only [cmpPairs] at h12
            cases e1k : cmpV k1 k2 with
            | eq =>
              simp only [e1k] at h12
              cases e1v : cmpV v1 v2 with
              | eq =>
                simp only [e1v] at h12
                cases r with
                | nil => simp only [cmpPairs]
                | cons r1 rs =>
                  obtain ⟨k3, v3⟩ := r1
                  simp only [cmpPairs]
                  have hltK : sizeOf k1 + sizeOf k2 + sizeOf k3 < n := by simp at hs; omega
                  have hltV : sizeOf v1 + sizeOf v2 + sizeOf v3 < n := by simp at hs; omega
                  have hltT : sizeOf ps + sizeOf qs + sizeOf rs < n := by simp at hs; omega
                  have hk : cmpV k1 k3 = cmpV k2 k3 := ((ih _ hltK).1 k1 k2 k3 le_rfl).2 e1k
                  rw [hk]
                  cases e2k : cmpV k2 k3 with
                  | eq =>
                    simp only [e2k]
                    have hv : cmpV v1 v3 = cmpV v2 v3 := ((ih _ hltV).1 v1 v2 v3 le_rfl).2 e1v
                    rw [hv]
                    cases e2v : cmpV v2 v3 with
                    | eq =>
                      simp only [e2v]
                      exact ((ih _ hltT).2.2 ps qs rs le_rfl).2 h12
                    | lt => simp only [e2v]
                    | gt => simp only [e2v]
                  | lt => simp only [e2k]
                  | gt => simp only [e2k]
              | lt => simp [e1v] at h12
              | gt => simp [e1v] at h12
            | lt => simp [e1k] at h12
            | gt => simp [e1k] at h12

theorem cmpV_lt_trans {a b c : Value} (h1 : cmpV a b = .lt) (h2 : cmpV b c = .lt) :
    cmpV a c = .lt :=
  ((cmpMasterAux (sizeOf a + sizeOf b + sizeOf c)).1 a b c le_rfl).1 h1 h2

theorem cmpV_eq_congr {a b : Value} (c : Value) (h : cmpV a b = .eq) :
    cmpV a c = cmpV b c :=
  ((cmpMasterAux (sizeOf a + sizeOf b + sizeOf c)).1 a b c le_rfl).2 h

/-- C9 counterexample: the order is not total and not componentwise on List
contents — the distinct Lists (1) and (2) compare equal under
Value::operator<=> (both same-variant List operands fall to the catch-all
`return lhs.index() <=> rhs.index()`), even though the elementwise
comparison used for Vectors would order them strictly. -/
theorem c9_counterexample_lists_compare_equal :
    cmpV (.vlist [.vnum 1]) (.vlist [.vnum 2]) = .eq ∧
    cmpList [Value.vnum 1] [Value.vnum 2] = .lt ∧
    Value.vlist [.vnum 1] ≠ Value.vlist [.vnum 2] := by
  refine ⟨?_, ?_, ?_⟩
  · simp only [cmpV, rank]
    decide
  · simp [cmpList, cmpV, numCompare]
  · intro h
    injection h with h1
    injection h1 with h2
    injection h2 with h3
    norm_num at h3

/-- C9: amended — Value::operator<=> is a strict weak order over NaN-free
Values, ordering first by variant rank, but not a strict total order:
comparison-equality is reflexive and congruent, the order swaps under
argument exchange and lt is transitive, and operands of different variant
rank are ordered purely by rank; however distinct same-variant List, Func
and Macro values compare equal (the counterexample), so equality derived
from the order does not coincide with value identity and List contents are
not compared componentwise. -/
theorem c9_value_order_strict_weak (a b c : Value) :
    cmpV a a = .eq ∧
    cmpV a b = (cmpV b a).swap ∧
    (cmpV a b = .lt → cmpV b c = .lt → cmpV a c = .lt) ∧
    (cmpV a b = .eq → cmpV a c = cmpV b c) ∧
    (rank a ≠ rank b → cmpV a b = compare (rank a) (rank b)) :=
  ⟨cmpV_refl a, cmpV_swap a b, fun h1 h2 => cmpV_lt_trans h1 h2,
   fun h => cmpV_eq_congr c h, fun h => cmpV_rank_ne h⟩

/-- Witness for C9: the amended properties applied at concrete Values, with
every hypothesis discharged by evaluation. -/
theorem c9_value_order_strict_weak_witness :
    cmpV (.vnum 1) (.vnum 3) = .lt ∧
    cmpV (.vnative ['f'] .nadd) .vnil = cmpV (.vnative ['f'] .nsub) .vnil ∧
    cmpV .vnil (.vbool true) = compare (rank .vnil) (rank (.vbool true)) := by
  have h12 : cmpV (.vnum 1) (.vnum 2) = .lt := by norm_num [cmpV, numCompare]
  have h23 : cmpV (.vnum 2) (.vnum 3) = .lt := by norm_num [cmpV, numCompare]
  have hn : cmpV (.vnative ['f'] .nadd) (.vnative ['f'] .nsub) = .eq := by
    simp only [cmpV]
    exact bin_compare_refl ['f']
  exact ⟨(c9_value_order_strict_weak (.vnum 1) (.vnum 2) (.vnum 3)).2.2.1 h12 h23,
         (c9_value_order_strict_weak (.vnative ['f'] .nadd) (.vnative ['f'] .nsub)
           .vnil).2.2.2.1 hn,
         (c9_value_order_strict_weak .vnil (.vbool true) .vnil).2.2.2.2 (by decide)⟩
